import Mathlib

/-!
# ARGO chord-transition model and orbit controller: a verification development

This file gives a shallow embedding in Lean 4 of the core of the ARGO
generative harmonic instrument (repository `argoweb`):

* the transition-graph builder `processData` (desktop sketch, `part_002`),
  including the CSV→Roman-numeral name mapper, the alias table, the
  alias-target remapping pass, and the gap-filling pass that appends
  synthetic low-weight edges;
* the top-successor computation used identically by
  `_orbitArrangeConnected`, `drawConnections` and `handleNodePress`
  (filter to on-screen targets, stable sort descending by weight, take 5);
* the orbit parameter formulas (`_calcBurstCount`, `_calcScatterProb`,
  the ghost-note octave roll of `_playGhostNote`);
* the orbit controller's timer discipline (`toggleOrbit`,
  `orbitOnNodeClick`, `_orbitPlayBurst`, `_orbitStartSilence`,
  `_scheduleGhostNotes`, `_orbitClearTimers`) as an explicit
  event-step transition system;
* node position save/restore on orbit activation/deactivation;
* `isOrbitVisible`;
* the shareable-state URL codec (`serializeToURL` / `deserializeFromURL`):
  JSON printing/parsing, UTF-8 byte encoding (the
  `unescape(encodeURIComponent(...))` idiom), `btoa`/`atob` base64, and the
  URL-safe character replacement and padding restoration used on the
  compressed path.

JavaScript numbers are modelled as exact rationals (`ℚ`), JS strings as
Lean `String` (or `List Char` in the codec, where character-level
reasoning is needed), and JS `Map`s as insertion-ordered association
lists with JS `Map.set` semantics (replace in place, else append).
Functions that can throw are modelled in `Option`/`Except`.
-/

set_option linter.unusedVariables false

/- Batteries marks the `Rat` field operations `@[irreducible]`, which
blocks kernel evaluation of concrete rational arithmetic (`decide` on
the concrete graphs below).  Restore the default reducibility locally;
this changes no definition and no proof obligation. -/
attribute [local semireducible] Rat.add Rat.sub Rat.mul Rat.inv

namespace Argo

/-! ## Insertion-ordered maps with JS `Map` semantics

`CHORD_TRANSITIONS` and `CHORD_PROBABILITIES` are JS `Map`s: `get` returns
the value of the first (unique) matching key, `set` overwrites in place
keeping the key's position, or appends a fresh key at the end. -/

/-- JS `Map` with `String` keys, as an insertion-ordered association list. -/
abbrev AMap (α : Type) := List (String × α)

/-- `Map.get`: value at a key, if present. -/
def mget {α : Type} (m : AMap α) (k : String) : Option α :=
  (m.find? (fun p => p.1 = k)).map (fun p => p.2)

/-- `Map.has`. -/
def mhas {α : Type} (m : AMap α) (k : String) : Bool :=
  (m.find? (fun p => p.1 = k)).isSome

/-- `Map.set`: replace the value in place if the key exists (keys are
unique, so the first hit is the entry), else append. -/
def mset {α : Type} : AMap α → String → α → AMap α
  | [], k, v => [(k, v)]
  | p :: rest, k, v => if p.1 = k then (k, v) :: rest else p :: mset rest k v

/-! ## Stable sorting

JS `Array.prototype.sort` is a stable sort (ES2019).  For a comparator
that induces a total preorder, the result of any stable sort is unique,
so we model it by stable insertion sort.  `lt a b` means the comparator
puts `a` strictly before `b`. -/

/-- Insert `x` after every leading element that must come strictly before
it — the stable insertion step. -/
def stableInsert {α : Type} (lt : α → α → Bool) (x : α) : List α → List α
  | [] => [x]
  | y :: ys => if lt y x then y :: stableInsert lt x ys else x :: y :: ys

/-- Stable sort by a strict comparator, modelling JS `Array.sort`. -/
def sortBy {α : Type} (lt : α → α → Bool) : List α → List α
  | [] => []
  | x :: xs => stableInsert lt x (sortBy lt xs)

/-! ## Transition graph data model (`part_002`)

A raw probability row is `(Normalized_Chord, Probability)`, a raw
transition row is `(Current_Chord, Next_Chord, Probability)`, and a
layout node carries the fields the builder reads: `name`, `func`, `r`. -/

/-- One element of a `CHORD_TRANSITIONS` edge list: `{ next, prob }`. -/
structure TransEdge where
  next : String
  prob : ℚ
  deriving DecidableEq, Repr

/-- A node of the layout JSON, restricted to the fields `processData`
reads: `name`, `func` (functional role) and `r` (ring radius). -/
structure LayoutNode where
  name : String
  func : String
  r : ℚ
  deriving DecidableEq, Repr

/-- A row of a `*_Normalized_Probabilities.csv` table. -/
structure ProbRow where
  chord : String
  prob : ℚ
  deriving DecidableEq, Repr

/-- A row of a `*_Normalized_Transitions.csv` table. -/
structure TransRow where
  current : String
  next : String
  prob : ℚ
  deriving DecidableEq, Repr

/-- The transition graph: node symbol → ordered edge list. -/
abbrev TransMap := AMap (List TransEdge)

/-! ## `mapCsvChordToRoman` (desktop version, `part_002`)

CSV (Nashville-ish) chord names → Roman numerals.  A JS `null`/empty
result is modelled as the empty string (both are falsy at the call
sites, which guard with `if (romanName)` for probabilities and use the
value directly as a key for transitions). -/

/-- Digit-rooted prefix map of the source's `romanMap` object. -/
def romanMap : List (String × String) :=
  [("1", "I"), ("2", "II"), ("3", "III"), ("4", "IV"), ("5", "V"),
   ("6", "VI"), ("7", "VII"),
   ("#1", "#I"), ("#2", "#II"), ("#4", "#IV"), ("#5", "#V"),
   ("b2", "bII"), ("b3", "bIII"), ("b5", "bV"), ("b6", "bVI"), ("b7", "bVII")]

/-- Does `pat` occur as a contiguous substring of `s`?  (JS
`String.prototype.includes`.) -/
def strIncludes (s pat : List Char) : Bool :=
  match s with
  | [] => pat.isEmpty
  | _ :: rest => pat.isPrefixOf s || strIncludes rest pat

/-- `name.replace(/\(.*$/, '')`: delete everything from the first `(` on. -/
def stripParen (s : List Char) : List Char :=
  s.takeWhile (fun c => c ≠ '(')

/-- Split off the `/^([#b]?\d)(.*)$/` match: `(rootNum, quality)` if the
string starts with an optional accidental followed by a single digit. -/
def splitRootQuality (s : List Char) : Option (List Char × List Char) :=
  match s with
  | c₁ :: c₂ :: rest =>
    if (c₁ = '#' || c₁ = 'b') && c₂.isDigit then some ([c₁, c₂], rest)
    else if c₁.isDigit then some ([c₁], c₂ :: rest)
    else none
  | [c₁] => if c₁.isDigit then some ([c₁], []) else none
  | [] => none

/-- `mapCsvChordToRoman` of `part_002`.  The self-replacements
`replace('#','#')`/`replace('b','b')` of the source are identities and
are omitted; a JS `null` return (empty input) is modelled as `""`. -/
def mapCsvChordToRoman (csvName : String) : String :=
  if csvName.isEmpty then "" else
  let name := stripParen csvName.toList
  match splitRootQuality name with
  | none => ⟨name⟩
  | some (rootNum, quality) =>
    let roman := ((romanMap.find? (fun p => p.1 = String.mk rootNum)).map
      (fun p => p.2)).getD (String.mk rootNum)
    let isMinorQuality := strIncludes quality ['m'] && !strIncludes quality ['m', 'a', 'j']
    let isDim := strIncludes quality ['d', 'i', 'm'] || strIncludes quality ['°'] ||
      quality = ['0', '7']
    let roman := if isMinorQuality || isDim then ⟨roman.toList.map Char.toLower⟩ else roman
    if quality = ['0', '7'] then roman ++ "°7" else roman ++ ⟨quality⟩

/-! ## `processData` (desktop version, `part_002`) -/

/-- Step 1 of `processData`: fold probability rows into
`CHORD_PROBABILITIES` (the `if (romanName)` guard skips falsy keys). -/
def buildProbabilities (rows : List ProbRow) : AMap ℚ :=
  rows.foldl (fun m row =>
    let romanName := mapCsvChordToRoman row.chord
    if romanName.isEmpty then m else mset m romanName row.prob) []

/-- Step 2 of `processData`: fold transition rows into
`CHORD_TRANSITIONS`, creating an empty list on first sight of a source
key and pushing `{ next, prob }`. -/
def buildTransitions (rows : List TransRow) : TransMap :=
  rows.foldl (fun m row =>
    let current := mapCsvChordToRoman row.current
    let next := mapCsvChordToRoman row.next
    mset m current (((mget m current).getD []) ++ [⟨next, row.prob⟩])) []

/-- The source's `ALIASES` object, in insertion order:
layout node name → CSV-mapped name. -/
def aliasTable : List (String × String) :=
  [("IIImMaj7", "IIImaj7"), ("ImMaj7", "Imaj7"), ("bVImMaj7", "bVImaj7"),
   ("bIImMaj7", "bIImaj7"), ("IVmMaj7", "IVmaj7"), ("bIIImMaj7", "bIIImaj7"),
   ("VIImMaj7", "VIImaj7"), ("ivmaj7", "IVmaj7"), ("IVm6", "ivm6")]

/-- Step 3a of `processData`: clone each alias's transitions from its
source when the alias has none.  (The JS spread `[...]` copies the array;
the edge objects are shared, which is observationally irrelevant here
because the later remapping pass is applied to every list and is
idempotent for this alias table — no alias is also a source.) -/
def applyAliasTransitions (m : TransMap) : TransMap :=
  aliasTable.foldl (fun m p =>
    if !mhas m p.1 && mhas m p.2 then mset m p.1 ((mget m p.2).getD []) else m) m

/-- Step 3a for probabilities. -/
def applyAliasProbabilities (m : AMap ℚ) : AMap ℚ :=
  aliasTable.foldl (fun m p =>
    if !mhas m p.1 && mhas m p.2 then mset m p.1 ((mget m p.2).getD 0) else m) m

/-- `reverseAliases`: CSV-mapped name → layout name, later entries
overwriting earlier ones (JS object assignment). -/
def reverseAliases : AMap String :=
  aliasTable.foldl (fun m p => mset m p.2 p.1) []

/-- Step 3b of `processData`: for every edge of every list, if the target
is not a layout name but has a reverse alias, rewrite it to the alias. -/
def remapAliasTargets (layoutNames : List String) (m : TransMap) : TransMap :=
  m.map (fun e => (e.1, e.2.map (fun t =>
    if !layoutNames.contains t.next && (mget reverseAliases t.next).isSome then
      { t with next := (mget reverseAliases t.next).getD t.next }
    else t)))

/-- Candidate ordering of the gap-filling pass: same functional role
first, then smaller absolute ring distance.  `candLt node a b` holds when
the source comparator returns a negative number on `(a, b)`. -/
def candLt (node : LayoutNode) (a b : LayoutNode) : Bool :=
  let funcA : ℕ := if a.func = node.func then 0 else 1
  let funcB : ℕ := if b.func = node.func then 0 else 1
  if funcA ≠ funcB then funcA < funcB else |a.r - node.r| < |b.r - node.r|

/-- The weight `0.15 - i * 0.02` given to the rank-`i` synthetic edge by
the desktop gap-filling pass (`part_002`, `prob: 0.15 - i * 0.02`). -/
def syntheticWeightDesktop (i : ℕ) : ℚ := 3 / 20 - (i : ℚ) * (1 / 50)

/-- The weight `0.02 / (i + 1)` given to the rank-`i` synthetic edge by
the mobile gap-filling pass (`part_001`, `prob: 0.02 / (i + 1)`). -/
def syntheticWeightMobile (i : ℕ) : ℚ := (1 / 50) / ((i : ℚ) + 1)

/-- The edge list produced for one layout node by the gap-filling pass,
given its current transitions `ts`: unchanged if at least 5 targets hit
the layout, else extended by synthetic edges to the best-ranked unused
layout nodes, with weights `0.15 - 0.02·i`. -/
def fillEntry (layout : List LayoutNode) (node : LayoutNode)
    (ts : List TransEdge) : List TransEdge :=
  let layoutNames := layout.map (fun n => n.name)
  let matching := ts.filter (fun t => layoutNames.contains t.next)
  if 5 ≤ matching.length then ts
  else
    let needed := 5 - matching.length
    let existingNext := ts.map (fun t => t.next)
    let candidates := sortBy (candLt node)
      (layout.filter (fun n => n.name ≠ node.name && !existingNext.contains n.name))
    let adds := (candidates.take (min needed candidates.length)).enum.map
      (fun p => TransEdge.mk p.2.name (syntheticWeightDesktop p.1))
    ts ++ adds

/-- Step 4 of `processData` for one layout node: ensure the node has a
(possibly empty, then gap-filled) entry. -/
def fillOne (layout : List LayoutNode) (m : TransMap) (node : LayoutNode) : TransMap :=
  let ts := (mget m node.name).getD []
  let m := if mhas m node.name then m else mset m node.name ts
  mset m node.name (fillEntry layout node ts)

/-- Step 4 of `processData`: gap-fill every layout node in order. -/
def fillGaps (layout : List LayoutNode) (m : TransMap) : TransMap :=
  layout.foldl (fillOne layout) m

/-- Steps 1–3 of `processData`: the transition map before gap-filling. -/
def preFillTransitions (transTable : List TransRow)
    (layout : List LayoutNode) : TransMap :=
  remapAliasTargets (layout.map (fun n => n.name))
    (applyAliasTransitions (buildTransitions transTable))

/-- `processData` (desktop, `part_002`), restricted to its
`CHORD_TRANSITIONS` output, from the raw transition table and the active
layout's node list. -/
def processData (transTable : List TransRow) (layout : List LayoutNode) : TransMap :=
  fillGaps layout (preFillTransitions transTable layout)

/-- `processData`'s `CHORD_PROBABILITIES` output. -/
def processDataProbabilities (probTable : List ProbRow) : AMap ℚ :=
  applyAliasProbabilities (buildProbabilities probTable)

/-! ## Top successors

The computation shared verbatim by `_orbitArrangeConnected`,
`_orbitAutoSelectNext`, `drawConnections` and `handleNodePress`: filter a
node's outgoing transitions to targets that are on-screen nodes, sort
descending by weight (stable), take the first `k`. -/

/-- Descending-weight comparator `(a, b) => b.prob - a.prob`:
`a` strictly before `b` iff `a.prob > b.prob`. -/
def probGt (a b : TransEdge) : Bool := b.prob < a.prob

/-- `topSuccessors(node, graph, layoutNodeNames, k)`. -/
def topSuccessors (nodeName : String) (graph : TransMap)
    (nodeNames : List String) (k : ℕ) : List TransEdge :=
  let allTrans := (mget graph nodeName).getD []
  let valid := allTrans.filter (fun t => nodeNames.contains t.next)
  (sortBy probGt valid).take k

/-! ## Determinism environment (C6)

`processData` reads the global tables selected by `currentScale`.  To
state that its output depends on nothing else (in particular not on the
random stream feeding `Math.random`, nor on the current key), we place
it in an explicit environment of all the globals it could see. -/

/-- The ambient globals visible to `processData`. -/
structure JsEnv where
  currentScale : String
  currentKey : ℤ
  majorTransTable : List TransRow
  minorTransTable : List TransRow
  majorLayout : List LayoutNode
  minorLayout : List LayoutNode
  randomStream : List ℚ

/-- `processData` as run against an environment: selects the minor or
major tables by `currentScale` exactly as the source does. -/
def processDataEnv (e : JsEnv) : TransMap :=
  let isMinor := e.currentScale = "minor"
  let transTable := if isMinor then e.minorTransTable else e.majorTransTable
  let layoutData := if isMinor then e.minorLayout else e.majorLayout
  processData transTable layoutData

/-! ## Orbit parameter formulas (`argo-state.js`)

`Math.random()` results are modelled as explicit rational arguments in
`[0, 1)`. -/

/-- `_calcBurstCount`: `1 + Math.floor((d/100)*6) + Math.floor(Math.random()*2)`. -/
def calcBurstCount (density roll : ℚ) : ℤ :=
  1 + ⌊density / 100 * 6⌋ + ⌊roll * 2⌋

/-- `_calcScatterProb`: `(scatter/100) * 0.6`. -/
def calcScatterProb (scatter : ℚ) : ℚ :=
  scatter / 100 * (6 / 10)

/-- `_calcGhostCount`: `0` below 5, else `floor((g/100)*5) + random{0,1}`. -/
def calcGhostCount (ghosts roll : ℚ) : ℤ :=
  if ghosts < 5 then 0 else ⌊ghosts / 100 * 5⌋ + ⌊roll * 2⌋

/-- Octave displacement applied to a ghost note's frequency. -/
inductive OctaveShift where
  | up
  | down
  | keep
  deriving DecidableEq, Repr

/-- The octave roll of `_playGhostNote`: with `p = _calcScatterProb()`,
`octRoll < p*0.3` doubles the frequency, else `octRoll < p*0.6` halves it. -/
def ghostOctaveShift (scatter octRoll : ℚ) : OctaveShift :=
  let scatterProb := calcScatterProb scatter
  if octRoll < scatterProb * (3 / 10) then .up
  else if octRoll < scatterProb * (6 / 10) then .down
  else .keep

/-- Is a ghost note's pitch displaced an octave (up or down)? -/
def ghostDisplaced (scatter octRoll : ℚ) : Bool :=
  ghostOctaveShift scatter octRoll ≠ .keep

/-! ## Orbit visibility (`isOrbitVisible`, `_orbitArrangeConnected`) -/

/-- The slice of orbit state that `isOrbitVisible` reads. -/
structure OrbitView where
  orbitMode : Bool
  visibleNodes : List String

/-- `isOrbitVisible(nodeName)`: everything is visible outside orbit mode
or before the first centering; afterwards only the recorded set. -/
def isOrbitVisible (v : OrbitView) (nodeName : String) : Bool :=
  if !v.orbitMode then true
  else if v.visibleNodes.isEmpty then true
  else v.visibleNodes.contains nodeName

/-- The visible-node set computed by `_orbitArrangeConnected`: the center
node's name plus the targets of its top-5 valid successors. -/
def orbitArrangeVisible (graph : TransMap) (nodeNames : List String)
    (centerName : String) : List String :=
  centerName :: (topSuccessors centerName graph nodeNames 5).map (fun t => t.next)

/-! ## Node positions (`toggleOrbit` save/restore, C9) -/

/-- A rendered node, restricted to the fields the restore loop touches
(`name`, `x`, `y`) plus an opaque stand-in `aux` for every other field
(glow, pulse, orbit animation targets, …). -/
structure VNode where
  name : String
  x : ℚ
  y : ℚ
  aux : ℚ
  deriving DecidableEq, Repr

/-- A `_orbitSavedPositions` record `{ name, x, y }`. -/
structure SavedPos where
  name : String
  x : ℚ
  y : ℚ
  deriving DecidableEq, Repr

/-- Activation: `nodes.map(n => ({ name: n.name, x: n.x, y: n.y }))`. -/
def savePositions (nodes : List VNode) : List SavedPos :=
  nodes.map (fun n => ⟨n.name, n.x, n.y⟩)

/-- `nodes.find(nd => nd.name === saved.name)` followed by the position
assignment: update the first node with the given name. -/
def updateFirst (nm : String) (px py : ℚ) : List VNode → List VNode
  | [] => []
  | n :: rest =>
    if n.name = nm then { n with x := px, y := py } :: rest
    else n :: updateFirst nm px py rest

/-- Deactivation restore loop of `toggleOrbit`: for each saved record,
find the node by name and restore its position. -/
def restorePositions (saved : List SavedPos) (nodes : List VNode) : List VNode :=
  saved.foldl (fun ns s => updateFirst s.name s.x s.y ns) nodes

/-! ## The orbit controller as a timer transition system (C4)

The controller's control flow lives in `toggleOrbit`, `orbitOnNodeClick`,
`orbitUpdate` (the end-of-centering trigger), `_orbitPlayBurst`,
`_orbitStartSilence`, `_orbitAutoSelectNext`, `_scheduleGhostNotes` and
`_orbitClearTimers`.  We model the single-threaded timer environment
explicitly: `setTimeout` draws a fresh handle and appends it to the
pending queue; `clearTimeout` removes it; delivering a timer removes it
from the queue and runs its callback.  Quantities the source draws from
sliders or `Math.random` (burst counts, ghost counts — the delays
themselves are irrelevant to the timer discipline) arrive as event
parameters.  Audio calls are recorded as effects. -/

namespace Orbit

/-- `_orbitPhase`. -/
inductive OPhase where
  | idle
  | centering
  | bursting
  | silence
  deriving DecidableEq, Repr

/-- The callbacks the controller schedules: the burst-duration timeout of
`_orbitPlayBurst`, the inter-burst gap timeout, the silence timeout of
`_orbitStartSilence`, and the ghost-note timeouts of
`_scheduleGhostNotes`. -/
inductive TimerCb where
  | burstEnd
  | gapFire
  | silenceEnd
  | ghost
  deriving DecidableEq, Repr

/-- Is this one of the single-slot orbit phase timers (held in
`_orbitTimer`), as opposed to a ghost-note timer? -/
def isPhaseCb : TimerCb → Bool
  | .ghost => false
  | _ => true

/-- Observable audio effects of a callback. -/
inductive Fx where
  | playChord
  | stopChord
  | ghostTone
  deriving DecidableEq, Repr

/-- The orbit controller state together with its timer environment.
`orbitTimer` is the `_orbitTimer` variable, `ghostTimers` is
`_ghostNoteTimers`, `pending` is the environment's queue of scheduled,
not-yet-delivered timeouts, and `nextId` generates fresh handles.
`hasNextNode`/`hasCenterNode` track nullness of `_orbitNextNode` and
`_orbitCenterNode`. -/
structure St where
  orbitMode : Bool
  phase : OPhase
  orbitTimer : Option ℕ
  ghostTimers : List ℕ
  pending : List (ℕ × TimerCb)
  nextId : ℕ
  burstCount : ℤ
  hasNextNode : Bool
  hasCenterNode : Bool
  deriving DecidableEq, Repr

/-- Initial state: orbit off, nothing scheduled. -/
def init : St :=
  { orbitMode := false, phase := .idle, orbitTimer := none, ghostTimers := []
    pending := [], nextId := 0, burstCount := 0
    hasNextNode := false, hasCenterNode := false }

/-- `setTimeout`: schedule a callback under a fresh handle. -/
def schedule (cb : TimerCb) (s : St) : ℕ × St :=
  (s.nextId, { s with pending := s.pending ++ [(s.nextId, cb)], nextId := s.nextId + 1 })

/-- `clearTimeout`. -/
def clearTimeout (id : ℕ) (s : St) : St :=
  { s with pending := s.pending.filter (fun p => p.1 ≠ id) }

/-- `_clearGhostNotes`: cancel every ghost timer and empty the list. -/
def clearGhostNotes (s : St) : St :=
  { s with pending := s.pending.filter (fun p => !s.ghostTimers.contains p.1)
           ghostTimers := [] }

/-- `_orbitClearTimers`: cancel the phase timer (if any) and the ghosts. -/
def orbitClearTimers (s : St) : St :=
  let s :=
    match s.orbitTimer with
    | some id => { clearTimeout id s with orbitTimer := none }
    | none => s
  clearGhostNotes s

/-- `_scheduleGhostNotes`'s scheduling loop: push `k` fresh ghost timers. -/
def pushGhosts : ℕ → St → St
  | 0, s => s
  | k + 1, s =>
    let (id, s) := schedule .ghost s
    pushGhosts k { s with ghostTimers := s.ghostTimers ++ [id] }

/-- `_scheduleGhostNotes` (ghost count `gk` stands for `_calcGhostCount()`). -/
def scheduleGhostNotes (gk : ℕ) (s : St) : St :=
  pushGhosts gk (clearGhostNotes s)

/-- `_orbitBeginCentering` (burst count `bc` stands for
`_calcBurstCount()`); `_orbitArrangeConnected` sets `_orbitCenterNode`. -/
def beginCentering (bc : ℤ) (s : St) : St :=
  { s with hasNextNode := true, phase := .centering
           hasCenterNode := true, burstCount := bc }

/-- `_orbitPlayBurst`: guard, enter `bursting`, play the chord, cancel
pending timers and schedule the burst-duration timeout. -/
def playBurst (s : St) : St × List Fx :=
  if !s.orbitMode || !s.hasNextNode then (s, [])
  else
    let s := { s with phase := .bursting }
    let s := orbitClearTimers s
    let (id, s) := schedule .burstEnd s
    ({ s with orbitTimer := some id }, [.playChord])

/-- `_orbitStartSilence`: guard, enter `silence`, schedule the ghost
notes and the silence timeout. -/
def startSilence (gk : ℕ) (s : St) : St :=
  if !s.orbitMode then s
  else
    let s := { s with phase := .silence }
    let s := scheduleGhostNotes gk s
    let (id, s) := schedule .silenceEnd s
    { s with orbitTimer := some id }

/-- `_orbitAutoSelectNext(_orbitCenterNode || _orbitNextNode)`: guards,
then centers on the selected node (which node is irrelevant here). -/
def autoSelectNext (bc : ℤ) (s : St) : St :=
  if !s.orbitMode || !(s.hasCenterNode || s.hasNextNode) then s
  else beginCentering bc s

/-- Run a delivered callback's body.  Every callback begins with the
`if (!orbitMode) return` liveness check; the ghost callback additionally
requires `_orbitPhase === 'silence'`. -/
def execCb (cb : TimerCb) (gk : ℕ) (bc : ℤ) (s : St) : St × List Fx :=
  match cb with
  | .burstEnd =>
    if !s.orbitMode then (s, [])
    else
      let s := { s with burstCount := s.burstCount - 1 }
      if 0 < s.burstCount then
        let (id, s) := schedule .gapFire s
        ({ s with orbitTimer := some id }, [.stopChord])
      else
        (startSilence gk s, [.stopChord])
  | .gapFire =>
    if !s.orbitMode then (s, [])
    else playBurst s
  | .silenceEnd =>
    if !s.orbitMode then (s, [])
    else (autoSelectNext bc s, [])
  | .ghost =>
    if s.orbitMode && s.phase = .silence then (s, [.ghostTone])
    else (s, [])

/-- `toggleOrbit`: flip the mode; on activation reset session state and
begin centering on the start node (when one exists); on deactivation
reset, cancel all timers, stop the chord and restore positions/audio. -/
def toggleOrbit (startExists : Bool) (bc : ℤ) (s : St) : St :=
  if !s.orbitMode then
    let s := { s with orbitMode := true, phase := .idle, burstCount := 0
                      hasCenterNode := false }
    if startExists then beginCentering bc s else s
  else
    let s := { s with orbitMode := false, phase := .idle, hasNextNode := false
                      burstCount := 0, hasCenterNode := false }
    orbitClearTimers s

/-- `orbitOnNodeClick`: manual override while active — cancel all pending
timers and recenter on the clicked node. -/
def onNodeClick (bc : ℤ) (s : St) : St :=
  if !s.orbitMode then s
  else beginCentering bc (orbitClearTimers s)

/-- `orbitUpdate` reaching the end of the centering animation
(`t >= 1.0`): trigger `_orbitPlayBurst`. -/
def frameCenterDone (s : St) : St :=
  if s.orbitMode && s.phase = .centering && s.hasNextNode then (playBurst s).1
  else s

/-- Events of the system: user toggles and clicks, the end of a centering
animation, and delivery of a pending timer.  `gk`/`bc` carry the
slider/random-derived ghost and burst counts consumed by the callback. -/
inductive Ev where
  | toggle (startExists : Bool) (bc : ℤ)
  | click (bc : ℤ)
  | frame
  | fire (id : ℕ) (gk : ℕ) (bc : ℤ)
  deriving DecidableEq, Repr

/-- One step of the system.  Delivering `fire id` is a no-op unless `id`
is actually pending; delivery removes it from the queue, then runs it. -/
def step (s : St) : Ev → St
  | .toggle startExists bc => toggleOrbit startExists bc s
  | .click bc => onNodeClick bc s
  | .frame => frameCenterDone s
  | .fire id gk bc =>
    match s.pending.find? (fun p => p.1 = id) with
    | none => s
    | some p =>
      (execCb p.2 gk bc { s with pending := s.pending.filter (fun q => q.1 ≠ id) }).1

/-- The state after an event sequence from startup. -/
def runEvents (evs : List Ev) : St :=
  evs.foldl step init

/-- The reachability invariant of the timer system, proved below to hold
along every run: pending handles are below the fresh-id counter and
pairwise distinct; every pending phase callback is registered in
`orbitTimer`; every pending ghost callback is registered in
`ghostTimers`; nothing is pending (and no ghost handle is retained)
while the orbit is off; and only ghost callbacks are pending while the
phase is `centering` or `idle`. -/
@[reducible] def Inv (s : St) : Prop :=
  (∀ p ∈ s.pending, p.1 < s.nextId) ∧
  (s.pending.map Prod.fst).Nodup ∧
  (∀ p ∈ s.pending, isPhaseCb p.2 = true → s.orbitTimer = some p.1) ∧
  (∀ p ∈ s.pending, p.2 = TimerCb.ghost → p.1 ∈ s.ghostTimers) ∧
  (s.orbitMode = false → s.pending = [] ∧ s.ghostTimers = []) ∧
  (s.phase = OPhase.centering ∨ s.phase = OPhase.idle →
    ∀ p ∈ s.pending, p.2 = TimerCb.ghost)

end Orbit

/-! ## Shareable-state URL codec (`serializeToURL` / `deserializeFromURL`)

`serializeToURL` JSON-encodes the state, then either (pako available)
deflates, base64-encodes via `btoa` and applies the URL-safe character
replacement with padding stripped, or (no pako) base64-encodes the UTF-8
bytes of the JSON (`btoa(unescape(encodeURIComponent(json)))`).
`deserializeFromURL` inverts each step inside a `try`/`catch` that turns
any failure into `null`.

JS strings are `List Char` here; byte sequences are `List ℕ` with values
below 256.  JS numbers are modelled as exact decimals `m·10⁻ᵉ`
(`JSON.stringify` prints a double's shortest exact decimal form and
`JSON.parse` reads it back exactly, so the decimal is the faithful
abstraction; scientific notation never occurs for the schema's values).
The JSON grammar modelled is the fragment the schema uses: objects,
strings without escape sequences, plain decimal numbers, booleans and
null (no arrays, exponents or whitespace — `JSON.stringify` emits none of
these for the schema). -/

/-- A JS number as an exact decimal `m / 10^e`. -/
structure JsNum where
  m : ℤ
  e : ℕ
  deriving DecidableEq, Repr

mutual
/-- The JSON values exchanged by the codec. -/
inductive Json where
  | jnull : Json
  | jbool : Bool → Json
  | jnum : ℤ → ℕ → Json
  | jstr : List Char → Json
  | jobj : JFields → Json
  deriving DecidableEq, Repr
/-- The ordered key/value fields of a JSON object (JS object key order =
insertion order, which `JSON.stringify` preserves). -/
inductive JFields where
  | fnil : JFields
  | fcons : List Char → Json → JFields → JFields
  deriving DecidableEq, Repr
end

/-- Decimal digit to character. -/
def digitChar (d : ℕ) : Char := Char.ofNat (48 + d)

/-- Decimal digits of a natural number (fuelled; `n + 1` steps suffice). -/
def natDigitsAux : ℕ → ℕ → List Char → List Char
  | 0, _, acc => acc
  | fuel + 1, n, acc =>
    if n < 10 then digitChar n :: acc
    else natDigitsAux fuel (n / 10) (digitChar (n % 10) :: acc)

/-- Decimal digits of a natural number, most significant first. -/
def natDigits (n : ℕ) : List Char := natDigitsAux (n + 1) n []

/-- Left-pad with a character up to a length. -/
def leftPad (c : Char) (k : ℕ) (s : List Char) : List Char :=
  List.replicate (k - s.length) c ++ s

/-- Print a decimal `m / 10^e` the way `JSON.stringify` prints the
corresponding double: optional sign, integer digits, and `e` fractional
digits after a point when `e > 0`. -/
def printNum (m : ℤ) (e : ℕ) : List Char :=
  let ds := leftPad '0' (e + 1) (natDigits m.natAbs)
  let body :=
    if e = 0 then ds
    else ds.take (ds.length - e) ++ '.' :: ds.drop (ds.length - e)
  if m < 0 then '-' :: body else body

mutual
/-- `JSON.stringify` (no-spaces form) on the modelled fragment. -/
def printJson : Json → List Char
  | .jnull => ['n', 'u', 'l', 'l']
  | .jbool true => ['t', 'r', 'u', 'e']
  | .jbool false => ['f', 'a', 'l', 's', 'e']
  | .jnum m e => printNum m e
  | .jstr s => '"' :: (s ++ ['"'])
  | .jobj fs => '{' :: (printFields fs ++ ['}'])
/-- Comma-separated `"key":value` list. -/
def printFields : JFields → List Char
  | .fnil => []
  | .fcons k v rest =>
    ('"' :: (k ++ '"' :: ':' :: printJson v)) ++
      (match rest with
       | .fnil => []
       | .fcons _ _ _ => ',' :: printFields rest)
end

/-- A string the printer can emit verbatim: no quote, no backslash, no
control characters (those would be escaped by `JSON.stringify`). -/
def wfStr (s : List Char) : Bool :=
  s.all (fun c => c ≠ '"' && c ≠ '\\' && 32 ≤ c.toNat)

mutual
/-- Values whose strings are all printable verbatim. -/
def wfJson : Json → Bool
  | .jnull => true
  | .jbool _ => true
  | .jnum _ _ => true
  | .jstr s => wfStr s
  | .jobj fs => wfFields fs
/-- Field lists whose keys and values are all printable verbatim. -/
def wfFields : JFields → Bool
  | .fnil => true
  | .fcons k v rest => wfStr k && wfJson v && wfFields rest
end

mutual
/-- Structural size of a value, bounding the parser fuel it needs. -/
def jsize : Json → ℕ
  | .jobj fs => 1 + fsize fs
  | _ => 1
/-- Structural size of a field list. -/
def fsize : JFields → ℕ
  | .fnil => 1
  | .fcons _ v rest => 1 + jsize v + fsize rest
end

/-- Read a string body up to the closing quote (the schema's strings
contain no escapes, so `JSON.parse`'s behavior on them is exactly this). -/
def parseStrBody : List Char → Option (List Char × List Char)
  | [] => none
  | c :: rest =>
    if c = '"' then some ([], rest)
    else (parseStrBody rest).map (fun p => (c :: p.1, p.2))

/-- Numeric value of a list of decimal digit characters. -/
def foldDigits (ds : List Char) : ℕ :=
  ds.foldl (fun a c => a * 10 + (c.toNat - 48)) 0

/-- Read a plain decimal number token: optional sign, digits, optional
point and fraction digits. -/
def parseNumToken (cs : List Char) : Option ((ℤ × ℕ) × List Char) :=
  let cs0 := if cs.head? = some '-' then cs.tail else cs
  let ds := cs0.takeWhile Char.isDigit
  let cs1 := cs0.dropWhile Char.isDigit
  if ds.isEmpty then none
  else
    match cs1 with
    | '.' :: cs2 =>
      let fs := cs2.takeWhile Char.isDigit
      let cs3 := cs2.dropWhile Char.isDigit
      if fs.isEmpty then none
      else
        let mAbs : ℤ := foldDigits (ds ++ fs)
        some ((if cs.head? = some '-' then -mAbs else mAbs, fs.length), cs3)
    | _ =>
      let mAbs : ℤ := foldDigits ds
      some ((if cs.head? = some '-' then -mAbs else mAbs, 0), cs1)

/-- A trailing context a number token does not leak into: empty, or
headed by a character that is neither a digit nor a point (inside the
printed JSON every number is followed by `,` or the closing brace). -/
def numSafe : List Char → Bool
  | [] => true
  | c :: _ => !(c.isDigit || c = '.')

mutual
/-- Recursive-descent `JSON.parse` on the modelled fragment (fuelled;
input length + 1 suffices). -/
def parseVal : ℕ → List Char → Option (Json × List Char)
  | 0, _ => none
  | fuel + 1, cs =>
    match cs with
    | 'n' :: 'u' :: 'l' :: 'l' :: rest => some (.jnull, rest)
    | 't' :: 'r' :: 'u' :: 'e' :: rest => some (.jbool true, rest)
    | 'f' :: 'a' :: 'l' :: 's' :: 'e' :: rest => some (.jbool false, rest)
    | '"' :: rest => (parseStrBody rest).map (fun p => (.jstr p.1, p.2))
    | '{' :: rest =>
      (match rest with
       | '}' :: rest2 => some (.jobj .fnil, rest2)
       | _ => (parseFieldSeq fuel rest).map (fun p => (.jobj p.1, p.2)))
    | _ => (parseNumToken cs).map (fun p => (.jnum p.1.1 p.1.2, p.2))
/-- One or more `"key":value` fields up to the closing brace. -/
def parseFieldSeq : ℕ → List Char → Option (JFields × List Char)
  | 0, _ => none
  | fuel + 1, cs =>
    match cs with
    | '"' :: cs1 =>
      (match parseStrBody cs1 with
       | none => none
       | some (k, cs2) =>
         match cs2 with
         | ':' :: cs3 =>
           (match parseVal fuel cs3 with
            | none => none
            | some (v, cs4) =>
              match cs4 with
              | ',' :: cs5 => (parseFieldSeq fuel cs5).map (fun p => (.fcons k v p.1, p.2))
              | '}' :: cs5 => some (.fcons k v .fnil, cs5)
              | _ => none)
         | _ => none)
    | _ => none
end

/-- `JSON.parse`: a full parse consuming the entire input. -/
def parseJsonComplete (cs : List Char) : Option Json :=
  match parseVal (cs.length + 1) cs with
  | some (j, []) => some j
  | _ => none

/-! ### Base64 (`btoa`/`atob`) -/

/-- The base64 alphabet. -/
def b64Alphabet : List Char :=
  "ABCDEFGHIJKLMNOPQRSTUVWXYZabcdefghijklmnopqrstuvwxyz0123456789+/".toList

/-- Sextet value → base64 character. -/
def encodeB64Char (n : ℕ) : Char := b64Alphabet.getD n 'A'

/-- Base64 character → sextet value, if in the alphabet. -/
def decodeB64Char (c : Char) : Option ℕ := b64Alphabet.findIdx? (fun x => x = c)

/-- `btoa`'s output on a byte sequence: 3-byte groups to 4 characters,
with `=` padding on a short final group. -/
def b64encodeBytes : List ℕ → List Char
  | [] => []
  | [b1] => [encodeB64Char (b1 / 4), encodeB64Char (b1 % 4 * 16), '=', '=']
  | [b1, b2] =>
    [encodeB64Char (b1 / 4), encodeB64Char (b1 % 4 * 16 + b2 / 16),
     encodeB64Char (b2 % 16 * 4), '=']
  | b1 :: b2 :: b3 :: rest =>
    encodeB64Char (b1 / 4) :: encodeB64Char (b1 % 4 * 16 + b2 / 16) ::
    encodeB64Char (b2 % 16 * 4 + b3 / 64) :: encodeB64Char (b3 % 64) ::
    b64encodeBytes rest

/-- `atob`: decode 4-character groups, `=` padding only in the final
group; any other character or a ragged length is an error (`none`). -/
def b64decodeChars : List Char → Option (List ℕ)
  | [] => some []
  | c1 :: c2 :: c3 :: c4 :: rest =>
    (match decodeB64Char c1, decodeB64Char c2 with
     | some v1, some v2 =>
       if rest.isEmpty && c3 = '=' && c4 = '=' then
         some [v1 * 4 + v2 / 16]
       else if rest.isEmpty && c4 = '=' then
         (match decodeB64Char c3 with
          | some v3 => some [v1 * 4 + v2 / 16, v2 % 16 * 16 + v3 / 4]
          | none => none)
       else
         (match decodeB64Char c3, decodeB64Char c4 with
          | some v3, some v4 =>
            (b64decodeChars rest).map (fun bs =>
              (v1 * 4 + v2 / 16) :: (v2 % 16 * 16 + v3 / 4) :: (v3 % 4 * 64 + v4) :: bs)
          | _, _ => none)
     | _, _ => none)
  | _ => none

/-- `btoa` itself: throws (here `none`) on a character above 255. -/
def btoaBytes (bs : List ℕ) : Option (List Char) :=
  if bs.all (fun b => b < 256) then some (b64encodeBytes bs) else none

/-! ### URL-safe layer (pako path only) -/

/-- `+`→`-`, `/`→`_`. -/
def urlSafeChar (c : Char) : Char :=
  if c = '+' then '-' else if c = '/' then '_' else c

/-- `-`→`+`, `_`→`/`. -/
def unUrlSafeChar (c : Char) : Char :=
  if c = '-' then '+' else if c = '_' then '/' else c

/-- `replace(/=+$/, '')`: strip trailing padding. -/
def stripTrailingEq (s : List Char) : List Char :=
  (s.reverse.dropWhile (fun c => c = '=')).reverse

/-- The serializer's post-processing:
`b.replace(/\+/g,'-').replace(/\//g,'_').replace(/=+$/,'')`. -/
def urlSafe (s : List Char) : List Char :=
  stripTrailingEq (s.map urlSafeChar)

/-- `while (b.length % 4) b += '='`. -/
def padTo4 (s : List Char) : List Char :=
  s ++ List.replicate ((4 - s.length % 4) % 4) '='

/-- The deserializer's pre-processing: map `-` back to `+` and `_` back
to `/` (the two global replaces), then re-pad. -/
def unUrlSafe (s : List Char) : List Char :=
  padTo4 (s.map unUrlSafeChar)

/-! ### UTF-8 (`unescape(encodeURIComponent(json))` and its inverse) -/

/-- UTF-8 bytes of one character. -/
def utf8EncodeChar (c : Char) : List ℕ :=
  let n := c.toNat
  if n < 128 then [n]
  else if n < 2048 then [192 + n / 64, 128 + n % 64]
  else if n < 65536 then [224 + n / 4096, 128 + n / 64 % 64, 128 + n % 64]
  else [240 + n / 262144, 128 + n / 4096 % 64, 128 + n / 64 % 64, 128 + n % 64]

/-- UTF-8 bytes of a string. -/
def utf8Encode (s : List Char) : List ℕ :=
  (s.map utf8EncodeChar).flatten

/-- Is `n` a Unicode scalar value (no surrogates, below `0x110000`)? -/
def isValidCp (n : ℕ) : Bool :=
  n < 55296 || (57344 ≤ n && n < 1114112)

/-- Is `b` a UTF-8 continuation byte? -/
def isContByte (b : ℕ) : Bool := 128 ≤ b && b < 192

/-- Strict UTF-8 decoding (fuelled; input length suffices): rejects stray
continuation bytes, truncated sequences, overlong forms and invalid
scalar values — `decodeURIComponent` throws on all of these. -/
def utf8DecodeAux : ℕ → List ℕ → Option (List Char)
  | _, [] => some []
  | 0, _ :: _ => none
  | fuel + 1, b :: rest =>
    if b < 128 then (utf8DecodeAux fuel rest).map (fun cs => Char.ofNat b :: cs)
    else if 192 ≤ b && b < 224 then
      (match rest with
       | b2 :: rest2 =>
         if isContByte b2 then
           let n := (b - 192) * 64 + (b2 - 128)
           if 128 ≤ n && isValidCp n then
             (utf8DecodeAux fuel rest2).map (fun cs => Char.ofNat n :: cs)
           else none
         else none
       | [] => none)
    else if 224 ≤ b && b < 240 then
      (match rest with
       | b2 :: b3 :: rest2 =>
         if isContByte b2 && isContByte b3 then
           let n := (b - 224) * 4096 + (b2 - 128) * 64 + (b3 - 128)
           if 2048 ≤ n && isValidCp n then
             (utf8DecodeAux fuel rest2).map (fun cs => Char.ofNat n :: cs)
           else none
         else none
       | _ => none)
    else if 240 ≤ b && b < 248 then
      (match rest with
       | b2 :: b3 :: b4 :: rest2 =>
         if isContByte b2 && isContByte b3 && isContByte b4 then
           let n := (b - 240) * 262144 + (b2 - 128) * 4096 + (b3 - 128) * 64 + (b4 - 128)
           if 65536 ≤ n && isValidCp n then
             (utf8DecodeAux fuel rest2).map (fun cs => Char.ofNat n :: cs)
           else none
         else none
       | _ => none)
    else none

/-- UTF-8 decoding of a byte sequence. -/
def utf8Decode (bs : List ℕ) : Option (List Char) :=
  utf8DecodeAux bs.length bs

/-! ### The codec itself -/

/-- The pako compression capability, when loaded: `pako.deflate` on a JS
string and `pako.inflate(·, {to: 'string'})`.  External library code —
abstract here, constrained only by the round-trip hypotheses of the
theorems that use it. -/
structure Codec where
  deflate : List Char → Option (List ℕ)
  inflate : List ℕ → Option (List Char)

/-- `serializeToURL`: JSON-encode, then compress + base64 + URL-safe when
pako is available, else base64 over UTF-8 bytes; any exception becomes
`null` (`none`). -/
def serializeToURL (pako : Option Codec) (state : Json) : Option (List Char) :=
  let json := printJson state
  match pako with
  | some c =>
    (match c.deflate json with
     | none => none
     | some bytes => (btoaBytes bytes).map urlSafe)
  | none => btoaBytes (utf8Encode json)

/-- The failure cases of `deserializeFromURL`'s `try` block. -/
inductive DecodeErr where
  | badBase64
  | badData
  | badJson
  deriving DecidableEq, Repr

/-- The body of `deserializeFromURL`'s `try` block, with each failing
step raising. -/
def deserPipeline (pako : Option Codec) (encoded : List Char) :
    Except DecodeErr Json :=
  match pako with
  | some c =>
    (match b64decodeChars (unUrlSafe encoded) with
     | none => .error .badBase64
     | some bytes =>
       match c.inflate bytes with
       | none => .error .badData
       | some json =>
         match parseJsonComplete json with
         | none => .error .badJson
         | some v => .ok v)
  | none =>
    (match b64decodeChars encoded with
     | none => .error .badBase64
     | some bytes =>
       match utf8Decode bytes with
       | none => .error .badData
       | some json =>
         match parseJsonComplete json with
         | none => .error .badJson
         | some v => .ok v)

/-- `deserializeFromURL`: the `try` body with `catch (e) { return null }`. -/
def deserializeFromURL (pako : Option Codec) (encoded : List Char) : Option Json :=
  (deserPipeline pako encoded).toOption

/-! ### The versioned `ShareableState` schema (`captureOrbitState`) -/

/-- The v2 shareable state: version, orbit flag, key, scale, the five
orbit parameters, the four effect toggles and the seven effect
parameters. -/
structure ShareableState where
  v : JsNum
  orbit : Bool
  key : JsNum
  scale : List Char
  density : JsNum
  scatter : JsNum
  drift : JsNum
  ghosts : JsNum
  warmth : JsNum
  fxFilter : Bool
  fxDelay : Bool
  fxReverb : Bool
  fxArp : Bool
  filterFreq : JsNum
  filterRes : JsNum
  delayDepth : JsNum
  delayTime : JsNum
  reverbDepth : JsNum
  arpSpeed : JsNum
  morphTime : JsNum
  deriving DecidableEq, Repr

/-- Shorthand. -/
def jn (x : JsNum) : Json := .jnum x.m x.e

/-- The JSON object `captureOrbitState` builds, with its exact key
insertion order. -/
def stateJson (s : ShareableState) : Json :=
  .jobj (.fcons "v".toList (jn s.v)
    (.fcons "orbit".toList (.jbool s.orbit)
      (.fcons "key".toList (jn s.key)
        (.fcons "scale".toList (.jstr s.scale)
          (.fcons "density".toList (jn s.density)
            (.fcons "scatter".toList (jn s.scatter)
              (.fcons "drift".toList (jn s.drift)
                (.fcons "ghosts".toList (jn s.ghosts)
                  (.fcons "warmth".toList (jn s.warmth)
                    (.fcons "fx".toList
                      (.jobj (.fcons "filter".toList (.jbool s.fxFilter)
                        (.fcons "delay".toList (.jbool s.fxDelay)
                          (.fcons "reverb".toList (.jbool s.fxReverb)
                            (.fcons "arp".toList (.jbool s.fxArp) .fnil)))))
                      (.fcons "params".toList
                        (.jobj (.fcons "filterFreq".toList (jn s.filterFreq)
                          (.fcons "filterRes".toList (jn s.filterRes)
                            (.fcons "delayDepth".toList (jn s.delayDepth)
                              (.fcons "delayTime".toList (jn s.delayTime)
                                (.fcons "reverbDepth".toList (jn s.reverbDepth)
                                  (.fcons "arpSpeed".toList (jn s.arpSpeed)
                                    (.fcons "morphTime".toList (jn s.morphTime)
                                      .fnil))))))))
                        .fnil)))))))))))

/-- A state the schema can carry: its one free-form string (the scale
name) prints verbatim. -/
def wfState (s : ShareableState) : Bool := wfStr s.scale

/-- The inverse-compression contract the pako path relies on: inflate
undoes deflate, and deflate yields genuine bytes.  The no-pako path has
no obligation. -/
def CodecOK : Option Codec → Prop
  | none => True
  | some c => ∀ s bytes, c.deflate s = some bytes →
      c.inflate bytes = some s ∧ ∀ b ∈ bytes, b < 256

/-! ## Well-behaved raw data and concrete test inputs -/

/-- A transition-map entry is well behaved for a node when it contains no
self-loop and its layout-targeted edges aim at pairwise distinct targets.
The raw statistics tables satisfy this for the shipped layouts; the
gap-filling guarantee of §4.1/§8.1 of the specification needs it. -/
def GoodEntry (nm : String) (names : List String) (ts : List TransEdge) : Prop :=
  (∀ e ∈ ts, e.next ≠ nm) ∧
  ((ts.filter (fun e => names.contains e.next)).map (fun e => e.next)).Nodup

instance (nm : String) (names : List String) (ts : List TransEdge) :
    Decidable (GoodEntry nm names ts) := by
  unfold GoodEntry
  infer_instance

/-- A 7-node test layout. -/
def exLayout : List LayoutNode :=
  [⟨"I", "Tonic", 1⟩, ⟨"II", "Tonic", 2⟩, ⟨"III", "Tonic", 3⟩,
   ⟨"IV", "Subdominant", 4⟩, ⟨"V", "Dominant", 5⟩, ⟨"VI", "Tonic", 6⟩,
   ⟨"VII", "Dominant", 7⟩]

/-- Its node names. -/
def exNames : List String := exLayout.map (fun n => n.name)

/-- A raw table with one self-loop row (`1 → 1`): `mapCsvChordToRoman`
sends both sides to `I`, a node of `exLayout`. -/
def selfLoopTrans : List TransRow := [⟨"1", "1", 9 / 10⟩]

/-- A raw table with one low-weight real edge (`1 → 2`, weight `0.05`,
below the `0.15` base weight of desktop synthetic edges). -/
def lowWeightTrans : List TransRow := [⟨"1", "2", 1 / 20⟩]

/-- Two pre-activation nodes. -/
def exVNodes0 : List VNode :=
  [⟨"A", 1, 2, 0⟩, ⟨"B", 3, 4, 0⟩]

/-- The same two nodes after orbit mode has moved them and changed their
other fields. -/
def exVNodes1 : List VNode :=
  [⟨"A", 9, 9, 5⟩, ⟨"B", 8, 8, 6⟩]

/-- A concrete shareable state (C major defaults with orbit on). -/
def exState : ShareableState :=
  { v := ⟨2, 0⟩, orbit := true, key := ⟨5, 0⟩, scale := "minor".toList
    density := ⟨40, 0⟩, scatter := ⟨35, 0⟩, drift := ⟨50, 0⟩
    ghosts := ⟨30, 0⟩, warmth := ⟨60, 0⟩
    fxFilter := true, fxDelay := false, fxReverb := true, fxArp := true
    filterFreq := ⟨6, 1⟩, filterRes := ⟨1, 1⟩, delayDepth := ⟨3, 1⟩
    delayTime := ⟨25, 2⟩, reverbDepth := ⟨5, 1⟩, arpSpeed := ⟨180, 0⟩
    morphTime := ⟨500, 0⟩ }

/-! # Theorems -/

/-! ## Association-list map lemmas -/

theorem mget_mset_self {α : Type} (m : AMap α) (k : String) (v : α) :
    mget (mset m k v) k = some v := by
  induction m with
  | nil => simp [mset, mget]
  | cons p rest ih =>
    by_cases hk : p.1 = k
    · simp [mset, hk, mget]
    · simp only [mset, if_neg hk]
      unfold mget at ih ⊢
      rw [List.find?_cons_of_neg _ (by simp [hk])]
      exact ih

theorem mget_mset_ne {α : Type} (m : AMap α) (k k' : String) (v : α)
    (h : k' ≠ k) : mget (mset m k v) k' = mget m k' := by
  induction m with
  | nil =>
    unfold mset mget
    rw [List.find?_cons_of_neg _
      (by simp only [decide_eq_true_eq]; exact fun hh => h hh.symm)]
  | cons p rest ih =>
    by_cases hk : p.1 = k
    · simp only [mset, if_pos hk]
      unfold mget
      rw [List.find?_cons_of_neg _ (by simp; exact fun hh => h hh.symm),
        List.find?_cons_of_neg _ (by simp [hk]; exact fun hh => h hh.symm)]
    · simp only [mset, if_neg hk]
      unfold mget at ih ⊢
      by_cases hk' : p.1 = k'
      · rw [List.find?_cons_of_pos _ (by simp [hk']),
          List.find?_cons_of_pos _ (by simp [hk'])]
      · rw [List.find?_cons_of_neg _ (by simp [hk']),
          List.find?_cons_of_neg _ (by simp [hk'])]
        exact ih

/-! ## Stable sort lemmas -/

theorem stableInsert_perm {α : Type} (lt : α → α → Bool) (x : α) (l : List α) :
    List.Perm (stableInsert lt x l) (x :: l) := by
  induction l with
  | nil => rfl
  | cons y ys ih =>
    unfold stableInsert
    split
    · exact ((ih.cons y).trans (List.Perm.swap x y ys))
    · rfl

theorem sortBy_perm {α : Type} (lt : α → α → Bool) (l : List α) :
    List.Perm (sortBy lt l) l := by
  induction l with
  | nil => rfl
  | cons x xs ih => exact (stableInsert_perm lt x (sortBy lt xs)).trans (ih.cons x)

/-! ## C3 — burst count formula and bounds

The claim's "at most 7" fails: at `density = 100` with addend 1 the
count is 8 (which the claim itself lists for density 100).  We refute
the stated bound and prove the claim with the bound amended to 8. -/

/-- C3 (counterexample): at density 100 and a random roll of `0.5`
(addend 1), `_calcBurstCount` returns 8, exceeding the claimed maximum
of 7. -/
theorem c3_burst_count_exceeds_seven :
    calcBurstCount 100 (1 / 2) = 8 ∧ ¬(calcBurstCount 100 (1 / 2) ≤ 7) := by
  constructor <;> decide

/-- C3 (amended: upper bound 8, not 7): for density in `[0, 100]` and a
uniform roll in `[0, 1)`, `_calcBurstCount` equals
`1 + floor(density/100 × 6) + addend` with addend `⌊roll·2⌋ ∈ {0, 1}`,
lies in `[1, 8]`, is in `{1, 2}` at density 0 and in `{7, 8}` at
density 100. -/
theorem c3_burst_count_bounds (d roll : ℚ)
    (hd0 : 0 ≤ d) (hd1 : d ≤ 100) (hr0 : 0 ≤ roll) (hr1 : roll < 1) :
    calcBurstCount d roll = 1 + ⌊d / 100 * 6⌋ + ⌊roll * 2⌋ ∧
    (⌊roll * 2⌋ = 0 ∨ ⌊roll * 2⌋ = 1) ∧
    1 ≤ calcBurstCount d roll ∧ calcBurstCount d roll ≤ 8 ∧
    (d = 0 → calcBurstCount d roll = 1 + ⌊roll * 2⌋ ∧
      (calcBurstCount d roll = 1 ∨ calcBurstCount d roll = 2)) ∧
    (d = 100 → calcBurstCount d roll = 7 + ⌊roll * 2⌋ ∧
      (calcBurstCount d roll = 7 ∨ calcBurstCount d roll = 8)) := by
  have haddend0 : 0 ≤ ⌊roll * 2⌋ := Int.floor_nonneg.mpr (by positivity)
  have haddend1 : ⌊roll * 2⌋ ≤ 1 := by
    have : ⌊roll * 2⌋ < 2 := Int.floor_lt.mpr (by push_cast; linarith)
    omega
  have hf0 : 0 ≤ ⌊d / 100 * 6⌋ := Int.floor_nonneg.mpr (by positivity)
  have hf6 : ⌊d / 100 * 6⌋ ≤ 6 := by
    have h : d / 100 * 6 ≤ (6 : ℚ) := by linarith
    calc ⌊d / 100 * 6⌋ ≤ ⌊(6 : ℚ)⌋ := Int.floor_le_floor h
    _ = 6 := by norm_num
  refine ⟨rfl, by omega, ?_, ?_, ?_, ?_⟩
  · unfold calcBurstCount; omega
  · unfold calcBurstCount; omega
  · intro hd
    subst hd
    have h0 : ⌊(0 : ℚ) / 100 * 6⌋ = 0 := by norm_num
    unfold calcBurstCount
    rw [h0]
    omega
  · intro hd
    subst hd
    have h6 : ⌊(100 : ℚ) / 100 * 6⌋ = 6 := by norm_num
    unfold calcBurstCount
    rw [h6]
    omega

/-- C3 (witness): the amended theorem applied at density 40, roll 0. -/
theorem c3_burst_count_witness :
    calcBurstCount 40 0 = 1 + ⌊(40 : ℚ) / 100 * 6⌋ + ⌊(0 : ℚ) * 2⌋ ∧
    (⌊(0 : ℚ) * 2⌋ = 0 ∨ ⌊(0 : ℚ) * 2⌋ = 1) ∧
    1 ≤ calcBurstCount 40 0 ∧ calcBurstCount 40 0 ≤ 8 ∧
    ((40 : ℚ) = 0 → calcBurstCount 40 0 = 1 + ⌊(0 : ℚ) * 2⌋ ∧
      (calcBurstCount 40 0 = 1 ∨ calcBurstCount 40 0 = 2)) ∧
    ((40 : ℚ) = 100 → calcBurstCount 40 0 = 7 + ⌊(0 : ℚ) * 2⌋ ∧
      (calcBurstCount 40 0 = 7 ∨ calcBurstCount 40 0 = 8)) :=
  c3_burst_count_bounds 40 0 (by norm_num) (by norm_num) le_rfl (by norm_num)

/-! ## C6 — determinism of graph construction -/

/-- C6: `processData` reads only the scale selector, the raw tables and
the layout; two environments agreeing on those (but with any random
streams and any current keys) produce identical transition maps —
identical edge lists in identical order, synthetic edges included. -/
theorem c6_processData_deterministic (e₁ e₂ : JsEnv)
    (hs : e₁.currentScale = e₂.currentScale)
    (hmt : e₁.majorTransTable = e₂.majorTransTable)
    (hnt : e₁.minorTransTable = e₂.minorTransTable)
    (hml : e₁.majorLayout = e₂.majorLayout)
    (hnl : e₁.minorLayout = e₂.minorLayout) :
    processDataEnv e₁ = processDataEnv e₂ := by
  unfold processDataEnv
  rw [hs, hmt, hnt, hml, hnl]

/-- C6 (witness): two environments that differ in the random stream and
the current key but share the tables produce the same graph. -/
theorem c6_processData_deterministic_witness :
    processDataEnv ⟨"major", 0, selfLoopTrans, [], exLayout, [], [1 / 2]⟩ =
    processDataEnv ⟨"major", 7, selfLoopTrans, [], exLayout, [], [1 / 3, 2 / 3]⟩ :=
  c6_processData_deterministic _ _ rfl rfl rfl rfl rfl

/-! ## C7 — ghost-note octave displacement probability

`_playGhostNote` compares the roll against `scatterProb * 0.3` and
`scatterProb * 0.6`, so the combined displacement threshold is
`(scatter/100) * 0.6 * 0.6 = (scatter/100) * 0.36`, not the claimed
`(scatter/100) * 0.6`. -/

/-- C7 (counterexample): at scatter 100 the claimed displacement
fraction is `0.6`, so the roll `0.5 < 0.6` should displace; the code
leaves the pitch untouched (its threshold is `0.36`). -/
theorem c7_scatter_prob_counterexample :
    ghostDisplaced 100 (1 / 2) = false ∧
    (1 / 2 : ℚ) < 100 / 100 * (6 / 10) := by
  constructor
  · decide
  · norm_num

/-- C7 (amended: the displacement fraction is `(scatter/100)·0.36`,
ranging over `[0, 0.36]`, not `(scatter/100)·0.6`): a ghost note's pitch
is displaced exactly when the uniform roll falls below
`scatterProb · 0.6` where `scatterProb = (scatter/100)·0.6`. -/
theorem c7_scatter_displacement (s roll : ℚ)
    (hs0 : 0 ≤ s) (hs1 : s ≤ 100) (hr0 : 0 ≤ roll) (hr1 : roll < 1) :
    (ghostDisplaced s roll = true ↔ roll < s / 100 * (9 / 25)) ∧
    calcScatterProb s * (6 / 10) = s / 100 * (9 / 25) ∧
    0 ≤ s / 100 * (9 / 25) ∧ s / 100 * (9 / 25) ≤ 9 / 25 := by
  have hp0 : 0 ≤ calcScatterProb s := by unfold calcScatterProb; positivity
  have hkey : calcScatterProb s * (6 / 10) = s / 100 * (9 / 25) := by
    unfold calcScatterProb; ring
  refine ⟨?_, hkey, by positivity, by nlinarith⟩
  by_cases h1 : roll < calcScatterProb s * (3 / 10)
  · have h2 : roll < calcScatterProb s * (6 / 10) := by nlinarith
    have hshift : ghostOctaveShift s roll = .up := by
      unfold ghostOctaveShift
      rw [if_pos h1]
    simp only [ghostDisplaced, hshift]
    rw [← hkey]
    simp [h2]
  · by_cases h2 : roll < calcScatterProb s * (6 / 10)
    · have hshift : ghostOctaveShift s roll = .down := by
        unfold ghostOctaveShift
        rw [if_neg h1, if_pos h2]
      simp only [ghostDisplaced, hshift]
      rw [← hkey]
      simp [h2]
    · have hshift : ghostOctaveShift s roll = .keep := by
        unfold ghostOctaveShift
        rw [if_neg h1, if_neg h2]
      simp only [ghostDisplaced, hshift]
      rw [← hkey]
      simp [h2]

/-- C7 (witness): the amended theorem applied at scatter 50, roll 0.5:
`0.5` is above the true threshold `0.18`, so no displacement. -/
theorem c7_scatter_displacement_witness :
    (ghostDisplaced 50 (1 / 2) = true ↔ (1 / 2 : ℚ) < 50 / 100 * (9 / 25)) ∧
    calcScatterProb 50 * (6 / 10) = 50 / 100 * (9 / 25) ∧
    0 ≤ (50 : ℚ) / 100 * (9 / 25) ∧ (50 : ℚ) / 100 * (9 / 25) ≤ 9 / 25 :=
  c7_scatter_displacement 50 (1 / 2) (by norm_num) (by norm_num)
    (by norm_num) (by norm_num)

/-! ## C8 — the deserializer never throws -/

/-- C8: `deserializeFromURL` is the `try` body with every failure caught:
whenever any stage of the pipeline fails (bad base64, bad compressed
data, bad JSON) the caller sees `null`, and whenever the pipeline
succeeds the caller sees the decoded value — never an exception. -/
theorem c8_deserialize_total (pako : Option Codec) (tok : List Char) :
    (∀ e, deserPipeline pako tok = .error e → deserializeFromURL pako tok = none) ∧
    (∀ v, deserPipeline pako tok = .ok v → deserializeFromURL pako tok = some v) := by
  constructor <;> intro x h <;> simp [deserializeFromURL, h, Except.toOption]

/-- C8 (witness): on the malformed token `"???"` (no base64 character)
the pipeline fails with a base64 error and the caller receives `null`. -/
theorem c8_deserialize_total_witness :
    deserializeFromURL none "???".toList = none :=
  (c8_deserialize_total none "???".toList).1 .badBase64 (by rfl)

/-! ## C10 — orbit visibility -/

/-- C10: `isOrbitVisible` returns `true` whenever orbit mode is off or
the visible set is still empty; and in orbit mode, once
`_orbitArrangeConnected` has recorded a center, a symbol is visible
exactly when it is the center's name or the target of one of its top-5
valid successors. -/
theorem c10_is_orbit_visible (v : OrbitView) (nm : String) :
    (v.orbitMode = false → isOrbitVisible v nm = true) ∧
    (v.visibleNodes = [] → isOrbitVisible v nm = true) ∧
    (∀ (graph : TransMap) (names : List String) (center : String),
      isOrbitVisible ⟨true, orbitArrangeVisible graph names center⟩ nm = true ↔
        nm = center ∨
          nm ∈ (topSuccessors center graph names 5).map (fun t => t.next)) := by
  refine ⟨?_, ?_, ?_⟩
  · intro h; simp [isOrbitVisible, h]
  · intro h; simp [isOrbitVisible, h]
  · intro graph names center
    simp only [isOrbitVisible, orbitArrangeVisible, Bool.not_true, List.isEmpty_cons,
      Bool.false_eq_true, if_false]
    simp [List.mem_cons]

/-! ## C9 — deactivation restores node positions -/

theorem restorePositions_skip_head (ss : List SavedPos) (m : VNode)
    (rest : List VNode) (h : ∀ s ∈ ss, s.name ≠ m.name) :
    restorePositions ss (m :: rest) = m :: restorePositions ss rest := by
  induction ss generalizing rest with
  | nil => rfl
  | cons s ss ih =>
    have hne : ¬ m.name = s.name :=
      fun hh => h s (List.mem_cons_self s ss) hh.symm
    have hupd : updateFirst s.name s.x s.y (m :: rest) =
        m :: updateFirst s.name s.x s.y rest := by
      simp only [updateFirst, if_neg hne]
    unfold restorePositions at ih ⊢
    simp only [List.foldl_cons, hupd]
    exact ih _ (fun s' hs' => h s' (List.mem_cons_of_mem s hs'))

theorem restorePositions_eq_zipWith (saved : List SavedPos) (ns : List VNode)
    (hnames : saved.map (fun s => s.name) = ns.map (fun n => n.name))
    (hnodup : (saved.map (fun s => s.name)).Nodup) :
    restorePositions saved ns =
      List.zipWith (fun (s : SavedPos) (n : VNode) =>
        { n with x := s.x, y := s.y }) saved ns := by
  induction saved generalizing ns with
  | nil =>
    have : ns = [] := by
      have := congrArg List.length hnames
      simpa using List.eq_nil_of_length_eq_zero (by simpa using this.symm)
    subst this
    rfl
  | cons s ss ih =>
    cases ns with
    | nil => simp at hnames
    | cons n ns' =>
      simp only [List.map_cons, List.cons.injEq] at hnames
      obtain ⟨hsn, htail⟩ := hnames
      simp only [List.map_cons, List.nodup_cons] at hnodup
      obtain ⟨hnotin, hnd⟩ := hnodup
      unfold restorePositions
      simp only [List.foldl_cons]
      rw [show updateFirst s.name s.x s.y (n :: ns') =
          { n with x := s.x, y := s.y } :: ns' by
        unfold updateFirst
        rw [if_pos hsn.symm]]
      have hskip : ∀ s' ∈ ss, s'.name ≠ ({ n with x := s.x, y := s.y } : VNode).name := by
        intro s' hs' hh
        exact hnotin (by rw [← hsn] at hh; rw [← hh]; exact List.mem_map_of_mem _ hs')
      calc List.foldl (fun ns s => updateFirst s.name s.x s.y ns)
            ({ n with x := s.x, y := s.y } :: ns') ss
          = restorePositions ss ({ n with x := s.x, y := s.y } :: ns') := rfl
        _ = { n with x := s.x, y := s.y } :: restorePositions ss ns' :=
            restorePositions_skip_head ss _ ns' hskip
        _ = _ := by rw [ih ns' htail hnd]; rfl

/-- C9: if positions were saved on activation (`savePositions` over the
activation-time node list `ns0`) and the node set is unchanged (same
names in the same order, names unique as in the layout), then after the
deactivation restore loop every node's `x` and `y` exactly equal their
pre-activation values, and no other node field is touched by the restore
step (name and the stand-in `aux` field come from the current list
`ns1`). -/
theorem c9_deactivation_restores_positions (ns0 ns1 : List VNode)
    (hnames : ns1.map (fun n => n.name) = ns0.map (fun n => n.name))
    (hnodup : (ns0.map (fun n => n.name)).Nodup) :
    (restorePositions (savePositions ns0) ns1).length = ns1.length ∧
    ∀ i, i < ns1.length →
      ((restorePositions (savePositions ns0) ns1).getD i ⟨"", 0, 0, 0⟩).x =
        (ns0.getD i ⟨"", 0, 0, 0⟩).x ∧
      ((restorePositions (savePositions ns0) ns1).getD i ⟨"", 0, 0, 0⟩).y =
        (ns0.getD i ⟨"", 0, 0, 0⟩).y ∧
      ((restorePositions (savePositions ns0) ns1).getD i ⟨"", 0, 0, 0⟩).name =
        (ns1.getD i ⟨"", 0, 0, 0⟩).name ∧
      ((restorePositions (savePositions ns0) ns1).getD i ⟨"", 0, 0, 0⟩).aux =
        (ns1.getD i ⟨"", 0, 0, 0⟩).aux := by
  have hlen : ns0.length = ns1.length := by
    have := congrArg List.length hnames
    simpa using this.symm
  have hsavednames : (savePositions ns0).map (fun s => s.name) =
      ns1.map (fun n => n.name) := by
    unfold savePositions
    rw [List.map_map, hnames]
    rfl
  have hz := restorePositions_eq_zipWith (savePositions ns0) ns1 hsavednames
    (by rw [hsavednames, hnames]; exact hnodup)
  have hslen : (savePositions ns0).length = ns0.length := by
    simp [savePositions]
  have hzlen : (restorePositions (savePositions ns0) ns1).length = ns1.length := by
    rw [hz]
    simp [savePositions, hlen]
  refine ⟨hzlen, ?_⟩
  intro i hi
  have h0 : i < ns0.length := hlen ▸ hi
  have hs0 : i < (savePositions ns0).length := hslen ▸ h0
  have h2 : i < (restorePositions (savePositions ns0) ns1).length := hzlen ▸ hi
  rw [List.getD_eq_getElem _ _ h2, List.getD_eq_getElem _ _ h0,
    List.getD_eq_getElem _ _ hi]
  have hmain : (restorePositions (savePositions ns0) ns1).get ⟨i, h2⟩ =
      { (ns1.get ⟨i, hi⟩) with
          x := ((savePositions ns0).get ⟨i, hs0⟩).x
          y := ((savePositions ns0).get ⟨i, hs0⟩).y } := by
    rw [List.get_of_eq hz ⟨i, h2⟩]
    simp [List.get_eq_getElem, List.getElem_zipWith]
  simp only [List.get_eq_getElem] at hmain
  rw [hmain]
  simp [savePositions, List.getElem_map]

/-- C9 (witness): the theorem at a concrete two-node scene — positions
return to their saved values, the other field keeps its orbit-time
value. -/
theorem c9_deactivation_restores_positions_witness :
    (restorePositions (savePositions exVNodes0) exVNodes1).length =
      exVNodes1.length ∧
    ∀ i, i < exVNodes1.length →
      ((restorePositions (savePositions exVNodes0) exVNodes1).getD i
        ⟨"", 0, 0, 0⟩).x = (exVNodes0.getD i ⟨"", 0, 0, 0⟩).x ∧
      ((restorePositions (savePositions exVNodes0) exVNodes1).getD i
        ⟨"", 0, 0, 0⟩).y = (exVNodes0.getD i ⟨"", 0, 0, 0⟩).y ∧
      ((restorePositions (savePositions exVNodes0) exVNodes1).getD i
        ⟨"", 0, 0, 0⟩).name = (exVNodes1.getD i ⟨"", 0, 0, 0⟩).name ∧
      ((restorePositions (savePositions exVNodes0) exVNodes1).getD i
        ⟨"", 0, 0, 0⟩).aux = (exVNodes1.getD i ⟨"", 0, 0, 0⟩).aux :=
  c9_deactivation_restores_positions exVNodes0 exVNodes1 (by decide) (by decide)

/-! ## C5 — synthetic edge weights

The ranks' weights do strictly decrease (desktop `0.15 - 0.02·i`, mobile
`0.02 / (i+1)`), but nothing compares them against the real edges'
weights: a real edge of weight `0.05` is outranked by a rank-0 synthetic
edge of weight `0.15`. -/

/-- C5 (counterexample): with one real raw edge `I → II` of weight
`0.05`, the gap-filled entry for `"I"` holds the real edge plus four
synthetic ones led by `⟨"III", 0.15⟩`, and `topSuccessors` ranks that
synthetic edge first — synthetic outranks real. -/
theorem c5_synthetic_outranks_real :
    mget (processData lowWeightTrans exLayout) "I" =
      some [⟨"II", 1 / 20⟩, ⟨"III", 3 / 20⟩, ⟨"VI", 13 / 100⟩,
        ⟨"IV", 11 / 100⟩, ⟨"V", 9 / 100⟩] ∧
    (topSuccessors "I" (processData lowWeightTrans exLayout) exNames 5).getD
      0 ⟨"", 0⟩ = ⟨"III", 3 / 20⟩ ∧
    (1 / 20 : ℚ) < 3 / 20 := by
  refine ⟨by decide, by decide, by norm_num⟩

/-- `fillEntry` with its let-bindings substituted, for rewriting. -/
theorem fillEntry_eq (layout : List LayoutNode) (node : LayoutNode)
    (ts : List TransEdge) :
    fillEntry layout node ts =
      if 5 ≤ (ts.filter (fun t =>
          (layout.map (fun n => n.name)).contains t.next)).length then ts
      else ts ++ ((sortBy (candLt node)
          (layout.filter (fun n => n.name ≠ node.name &&
            !(ts.map (fun t => t.next)).contains n.name))).take
          (min (5 - (ts.filter (fun t =>
              (layout.map (fun n => n.name)).contains t.next)).length)
            ((sortBy (candLt node)
              (layout.filter (fun n => n.name ≠ node.name &&
                !(ts.map (fun t => t.next)).contains n.name))).length))).enum.map
          (fun p => TransEdge.mk p.2.name (syntheticWeightDesktop p.1)) := rfl

/-- C5 (amended: the strict rank-decrease holds, the synthetic-below-real
comparison does not): the synthetic edges appended to a node's entry by
the desktop gap-filling pass carry strictly decreasing weights with rank,
and the mobile weight formula `0.02/(i+1)` is strictly decreasing too. -/
theorem c5_synthetic_weights_strictly_decrease :
    (∀ (layout : List LayoutNode) (node : LayoutNode) (ts : List TransEdge)
      (i j : ℕ), i < j →
      ∀ hj : j < ((fillEntry layout node ts).drop ts.length).length,
        (((fillEntry layout node ts).drop ts.length).getD j ⟨"", 0⟩).prob <
        (((fillEntry layout node ts).drop ts.length).getD i ⟨"", 0⟩).prob) ∧
    (∀ i j : ℕ, i < j → syntheticWeightMobile j < syntheticWeightMobile i) := by
  constructor
  · intro layout node ts i j hij hj
    rw [fillEntry_eq] at hj ⊢
    by_cases h5 : 5 ≤ (ts.filter (fun t =>
        (layout.map (fun n => n.name)).contains t.next)).length
    · rw [if_pos h5, List.drop_length] at hj
      simp at hj
    · rw [if_neg h5, List.drop_left] at hj ⊢
      have hi := lt_trans hij hj
      rw [List.getD_eq_getElem _ _ hj, List.getD_eq_getElem _ _ hi]
      simp only [List.getElem_map, List.getElem_enum]
      unfold syntheticWeightDesktop
      have : (i : ℚ) < (j : ℚ) := by exact_mod_cast hij
      linarith
  · intro i j hij
    unfold syntheticWeightMobile
    have h1 : (0 : ℚ) < (i : ℚ) + 1 := by positivity
    have h2 : (i : ℚ) + 1 < (j : ℚ) + 1 := by
      have : (i : ℚ) < (j : ℚ) := by exact_mod_cast hij
      linarith
    exact div_lt_div_of_pos_left (by norm_num) h1 h2

/-- C5 (witness): the amended theorem at the empty entry of the example
layout — rank 1's weight `0.13` is below rank 0's `0.15`. -/
theorem c5_synthetic_weights_witness :
    (((fillEntry exLayout ⟨"I", "Tonic", 1⟩ []).drop (List.length
      ([] : List TransEdge))).getD 1 ⟨"", 0⟩).prob <
    (((fillEntry exLayout ⟨"I", "Tonic", 1⟩ []).drop (List.length
      ([] : List TransEdge))).getD 0 ⟨"", 0⟩).prob :=
  c5_synthetic_weights_strictly_decrease.1 exLayout ⟨"I", "Tonic", 1⟩ []
    0 1 (by norm_num) (by decide)

/-! ## C1 — graph completeness after gap-filling

The claim fails as stated: a raw self-loop (row `1 → 1`) counts toward
the "5 matching targets" test and survives into the top-5, so a top
successor can equal the node itself; duplicate raw edges to one layout
target likewise break distinctness.  Under the amendment that the raw
entry of each node has no self-loop and pairwise distinct layout
targets (`GoodEntry`, true of the shipped statistics), the claim holds. -/

theorem length_filter_comp {α β : Type} (f : α → β) (p : β → Bool) (l : List α) :
    (l.filter (fun x => p (f x))).length = ((l.map f).filter p).length := by
  induction l with
  | nil => rfl
  | cons a l ih =>
    by_cases h : p (f a) = true <;>
      simp [List.filter_cons, h, ih]

theorem length_filter_or_disjoint {α : Type} (p q : α → Bool) (l : List α)
    (h : ∀ x ∈ l, ¬(p x = true ∧ q x = true)) :
    (l.filter (fun x => p x || q x)).length =
      (l.filter p).length + (l.filter q).length := by
  induction l with
  | nil => rfl
  | cons a l ih =>
    have ha := h a (List.mem_cons_self a l)
    have ihl := ih (fun x hx => h x (List.mem_cons_of_mem a hx))
    by_cases hp : p a = true
    · have hq : q a = false := by
        cases hqv : q a with
        | false => rfl
        | true => exact absurd ⟨hp, hqv⟩ ha
      simp [List.filter_cons, hp, hq, ihl]
      omega
    · have hp' : p a = false := by simpa using hp
      by_cases hq : q a = true <;>
        simp [List.filter_cons, hp', hq, ihl] <;> omega

theorem length_filter_eq_single {α : Type} [DecidableEq α] (l : List α) (a : α)
    (hnd : l.Nodup) (ha : a ∈ l) :
    (l.filter (fun x => decide (x = a))).length = 1 := by
  induction l with
  | nil => simp at ha
  | cons b l ih =>
    rw [List.nodup_cons] at hnd
    rcases List.mem_cons.mp ha with h | h
    · subst h
      have hempty : l.filter (fun x => decide (x = a)) = [] := by
        apply List.filter_eq_nil_iff.mpr
        intro x hx
        simp only [decide_eq_true_eq]
        exact fun hh => hnd.1 (hh ▸ hx)
      simp [List.filter_cons, hempty]
    · have hb : ¬(b = a) := fun hh => hnd.1 (hh ▸ h)
      simp [List.filter_cons, hb, ih hnd.2 h]

theorem length_eq_of_nodup_of_mem_iff {α : Type} [DecidableEq α]
    (l₁ l₂ : List α) (h₁ : l₁.Nodup) (h₂ : l₂.Nodup)
    (hiff : ∀ x, x ∈ l₁ ↔ x ∈ l₂) : l₁.length = l₂.length :=
  (List.perm_of_nodup_nodup_toFinset_eq h₁ h₂
    (by ext x; simp [List.mem_toFinset, hiff])).length_eq

/-- The number of gap-fill candidates of a node: all layout nodes minus
the node itself minus the (distinct) layout-targeted edges it has. -/
theorem candidates_length (layout : List LayoutNode) (v : LayoutNode)
    (ts : List TransEdge)
    (hnd : (layout.map (fun n => n.name)).Nodup)
    (hv : v ∈ layout)
    (hself : ∀ e ∈ ts, e.next ≠ v.name)
    (htgts : ((ts.filter (fun e =>
      (layout.map (fun n => n.name)).contains e.next)).map
        (fun e => e.next)).Nodup) :
    (layout.filter (fun n => n.name ≠ v.name &&
        !(ts.map (fun t => t.next)).contains n.name)).length =
      layout.length - 1 - ((ts.filter (fun e =>
        (layout.map (fun n => n.name)).contains e.next)).map
          (fun e => e.next)).length ∧
    ((ts.filter (fun e => (layout.map (fun n => n.name)).contains e.next)).map
      (fun e => e.next)).length + 1 ≤ layout.length := by
  have hcomp :
      (layout.filter (fun n => n.name ≠ v.name &&
          !(ts.map (fun t => t.next)).contains n.name)).length =
        ((layout.map (fun n => n.name)).filter (fun x => decide (x ≠ v.name) &&
          !(ts.map (fun t => t.next)).contains x)).length :=
    length_filter_comp (fun n => n.name)
      (fun x => decide (x ≠ v.name) && !(ts.map (fun t => t.next)).contains x)
      layout
  have hsplit : (layout.map (fun n => n.name)).length =
      ((layout.map (fun n => n.name)).filter (fun x => decide (x ≠ v.name) &&
        !(ts.map (fun t => t.next)).contains x)).length +
      ((layout.map (fun n => n.name)).filter (fun x =>
        !(decide (x ≠ v.name) &&
          !(ts.map (fun t => t.next)).contains x))).length :=
    List.length_eq_length_filter_add _
  have hnotp : ((layout.map (fun n => n.name)).filter (fun x =>
      !(decide (x ≠ v.name) && !(ts.map (fun t => t.next)).contains x))).length =
      ((layout.map (fun n => n.name)).filter (fun x =>
        decide (x = v.name) || (ts.map (fun t => t.next)).contains x)).length := by
    congr 1
    apply List.filter_congr
    intro x _
    cases hd : decide (x = v.name) <;>
      cases hc : (ts.map (fun t => t.next)).contains x <;>
        simp_all
  have hdisj : ∀ x ∈ layout.map (fun n => n.name),
      ¬(decide (x = v.name) = true ∧
        (ts.map (fun t => t.next)).contains x = true) := by
    intro x _ ⟨hx, hc⟩
    simp only [decide_eq_true_eq] at hx
    subst hx
    rcases List.mem_map.mp (by simpa using hc) with ⟨e, he, hne⟩
    exact hself e he hne
  have hor : ((layout.map (fun n => n.name)).filter (fun x =>
      decide (x = v.name) || (ts.map (fun t => t.next)).contains x)).length =
      ((layout.map (fun n => n.name)).filter (fun x =>
        decide (x = v.name))).length +
      ((layout.map (fun n => n.name)).filter (fun x =>
        (ts.map (fun t => t.next)).contains x)).length :=
    length_filter_or_disjoint (fun x => decide (x = v.name))
      (fun x => (ts.map (fun t => t.next)).contains x)
      (layout.map (fun n => n.name)) hdisj
  have hone : ((layout.map (fun n => n.name)).filter (fun x =>
      decide (x = v.name))).length = 1 :=
    length_filter_eq_single _ v.name hnd (List.mem_map_of_mem _ hv)
  have hmemlen : ((layout.map (fun n => n.name)).filter (fun x =>
      (ts.map (fun t => t.next)).contains x)).length =
      ((ts.filter (fun e =>
        (layout.map (fun n => n.name)).contains e.next)).map
          (fun e => e.next)).length := by
    apply length_eq_of_nodup_of_mem_iff _ _ (List.Nodup.filter _ hnd) htgts
    intro x
    constructor
    · intro hx
      rw [List.mem_filter] at hx
      obtain ⟨hxnames, hxcont⟩ := hx
      have hxnext : x ∈ ts.map (fun t => t.next) := by simpa using hxcont
      rcases List.mem_map.mp hxnext with ⟨e, he, hne⟩
      apply List.mem_map.mpr
      refine ⟨e, List.mem_filter.mpr ⟨he, ?_⟩, hne⟩
      rw [hne]
      simpa using hxnames
    · intro hx
      rcases List.mem_map.mp hx with ⟨e, hef, hne⟩
      rw [List.mem_filter] at hef
      obtain ⟨he, hcont⟩ := hef
      rw [List.mem_filter]
      refine ⟨?_, ?_⟩
      · have hmm : e.next ∈ layout.map (fun n => n.name) := by simpa using hcont
        rwa [hne] at hmm
      · have hxnext : x ∈ ts.map (fun t => t.next) :=
          hne ▸ List.mem_map_of_mem _ he
        simpa using hxnext
  have hlenmap : (layout.map (fun n => n.name)).length = layout.length :=
    List.length_map _ _
  constructor
  · omega
  · omega
/-- Properties of the synthetic block appended by the gap-filling pass:
its targets are pairwise distinct layout names, none is the node itself
or an existing target, and it has one edge per retained candidate. -/
theorem adds_props (layout : List LayoutNode) (v : LayoutNode)
    (ts : List TransEdge) (needed : ℕ)
    (hnd : (layout.map (fun n => n.name)).Nodup) :
    ((((sortBy (candLt v) (layout.filter (fun n => n.name ≠ v.name &&
        !(ts.map (fun t => t.next)).contains n.name))).take
        (min needed (sortBy (candLt v) (layout.filter (fun n =>
          n.name ≠ v.name &&
          !(ts.map (fun t => t.next)).contains n.name))).length)).enum.map
        (fun p => TransEdge.mk p.2.name (syntheticWeightDesktop p.1))).map
        (fun e => e.next)).Nodup ∧
    (∀ e ∈ ((sortBy (candLt v) (layout.filter (fun n => n.name ≠ v.name &&
        !(ts.map (fun t => t.next)).contains n.name))).take
        (min needed (sortBy (candLt v) (layout.filter (fun n =>
          n.name ≠ v.name &&
          !(ts.map (fun t => t.next)).contains n.name))).length)).enum.map
        (fun p => TransEdge.mk p.2.name (syntheticWeightDesktop p.1)),
      e.next ∈ layout.map (fun n => n.name) ∧ e.next ≠ v.name ∧
        e.next ∉ ts.map (fun t => t.next)) ∧
    (((sortBy (candLt v) (layout.filter (fun n => n.name ≠ v.name &&
        !(ts.map (fun t => t.next)).contains n.name))).take
        (min needed (sortBy (candLt v) (layout.filter (fun n =>
          n.name ≠ v.name &&
          !(ts.map (fun t => t.next)).contains n.name))).length)).enum.map
        (fun p => TransEdge.mk p.2.name (syntheticWeightDesktop p.1))).length =
      min needed (layout.filter (fun n => n.name ≠ v.name &&
        !(ts.map (fun t => t.next)).contains n.name)).length := by
  have hperm := sortBy_perm (candLt v) (layout.filter (fun n =>
    n.name ≠ v.name && !(ts.map (fun t => t.next)).contains n.name))
  have htake := List.take_sublist (min needed (sortBy (candLt v)
    (layout.filter (fun n => n.name ≠ v.name &&
      !(ts.map (fun t => t.next)).contains n.name))).length)
    (sortBy (candLt v) (layout.filter (fun n => n.name ≠ v.name &&
      !(ts.map (fun t => t.next)).contains n.name)))
  have hmapnext : ∀ (tk : List LayoutNode),
      (tk.enum.map (fun p => TransEdge.mk p.2.name
        (syntheticWeightDesktop p.1))).map (fun e => e.next) =
      tk.map (fun n => n.name) := by
    intro tk
    rw [List.map_map]
    have : ((fun e => e.next) ∘ fun (p : ℕ × LayoutNode) =>
        TransEdge.mk p.2.name (syntheticWeightDesktop p.1)) =
        (fun n => n.name) ∘ Prod.snd := rfl
    rw [this, ← List.map_map, List.enum_map_snd]
  have hmemtk : ∀ e ∈ ((sortBy (candLt v) (layout.filter (fun n =>
      n.name ≠ v.name && !(ts.map (fun t => t.next)).contains n.name))).take
      (min needed (sortBy (candLt v) (layout.filter (fun n =>
        n.name ≠ v.name &&
        !(ts.map (fun t => t.next)).contains n.name))).length)).enum.map
      (fun p => TransEdge.mk p.2.name (syntheticWeightDesktop p.1)),
      ∃ n ∈ layout.filter (fun n => n.name ≠ v.name &&
        !(ts.map (fun t => t.next)).contains n.name), n.name = e.next := by
    intro e he
    have hx : e.next ∈ ((sortBy (candLt v) (layout.filter (fun n =>
        n.name ≠ v.name && !(ts.map (fun t => t.next)).contains n.name))).take
        (min needed (sortBy (candLt v) (layout.filter (fun n =>
          n.name ≠ v.name &&
          !(ts.map (fun t => t.next)).contains n.name))).length)).map
        (fun n => n.name) := by
      rw [← hmapnext]
      exact List.mem_map_of_mem _ he
    rcases List.mem_map.mp hx with ⟨n, hn, hnn⟩
    exact ⟨n, hperm.mem_iff.mp (htake.subset hn), hnn⟩
  refine ⟨?_, ?_, ?_⟩
  · rw [hmapnext]
    have hfnd : ((layout.filter (fun n => n.name ≠ v.name &&
        !(ts.map (fun t => t.next)).contains n.name)).map
        (fun n => n.name)).Nodup :=
      ((List.filter_sublist layout).map (fun n => n.name)).nodup hnd
    exact ((htake.map (fun n => n.name)).nodup
      (((hperm.map (fun n => n.name)).nodup_iff).mpr hfnd))
  · intro e he
    rcases hmemtk e he with ⟨n, hn, hnn⟩
    rw [List.mem_filter] at hn
    obtain ⟨hnl, hcond⟩ := hn
    simp only [Bool.and_eq_true, decide_eq_true_eq, Bool.not_eq_true] at hcond
    refine ⟨hnn ▸ List.mem_map_of_mem _ hnl, hnn ▸ hcond.1, ?_⟩
    rw [← hnn]
    intro hmem
    have hc : (ts.map (fun t => t.next)).contains n.name = true := by
      simpa using hmem
    rw [hc] at hcond
    simp at hcond
  · rw [List.length_map, List.enum_length, List.length_take]
    rw [hperm.length_eq]
    omega

/-- The layout-targeted edges of a gap-filled entry: nodup targets, no
self-target, and exactly `min 5 (n − 1)` of them count toward the top-5. -/
theorem fillEntry_valid (layout : List LayoutNode) (v : LayoutNode)
    (ts : List TransEdge)
    (hnd : (layout.map (fun n => n.name)).Nodup)
    (hv : v ∈ layout)
    (hgood : GoodEntry v.name (layout.map (fun n => n.name)) ts) :
    (((fillEntry layout v ts).filter (fun e =>
        (layout.map (fun n => n.name)).contains e.next)).map
        (fun e => e.next)).Nodup ∧
    (∀ e ∈ (fillEntry layout v ts).filter (fun e =>
        (layout.map (fun n => n.name)).contains e.next), e.next ≠ v.name) ∧
    min 5 ((fillEntry layout v ts).filter (fun e =>
        (layout.map (fun n => n.name)).contains e.next)).length =
      min 5 (layout.length - 1) := by
  obtain ⟨hself, htgts⟩ := hgood
  obtain ⟨hclen, hmle⟩ := candidates_length layout v ts hnd hv hself htgts
  rw [fillEntry_eq]
  by_cases h5 : 5 ≤ (ts.filter (fun t =>
      (layout.map (fun n => n.name)).contains t.next)).length
  · rw [if_pos h5]
    refine ⟨htgts, ?_, ?_⟩
    · intro e he
      exact hself e (List.mem_filter.mp he).1
    · have hmap : ((ts.filter (fun t =>
          (layout.map (fun n => n.name)).contains t.next)).map
          (fun e => e.next)).length =
          (ts.filter (fun t =>
            (layout.map (fun n => n.name)).contains t.next)).length :=
        List.length_map _ _
      omega
  · rw [if_neg h5]
    obtain ⟨haddnd, haddmem, haddlen⟩ := adds_props layout v ts
      (5 - (ts.filter (fun t =>
        (layout.map (fun n => n.name)).contains t.next)).length) hnd
    rw [List.filter_append]
    have haddsfull : ((sortBy (candLt v) (layout.filter (fun n =>
        n.name ≠ v.name && !(ts.map (fun t => t.next)).contains n.name))).take
        (min (5 - (ts.filter (fun t =>
          (layout.map (fun n => n.name)).contains t.next)).length)
          (sortBy (candLt v) (layout.filter (fun n => n.name ≠ v.name &&
            !(ts.map (fun t => t.next)).contains n.name))).length)).enum.map
        (fun p => TransEdge.mk p.2.name (syntheticWeightDesktop p.1)) =
        (((sortBy (candLt v) (layout.filter (fun n =>
        n.name ≠ v.name && !(ts.map (fun t => t.next)).contains n.name))).take
        (min (5 - (ts.filter (fun t =>
          (layout.map (fun n => n.name)).contains t.next)).length)
          (sortBy (candLt v) (layout.filter (fun n => n.name ≠ v.name &&
            !(ts.map (fun t => t.next)).contains n.name))).length)).enum.map
        (fun p => TransEdge.mk p.2.name (syntheticWeightDesktop p.1))).filter
          (fun e => (layout.map (fun n => n.name)).contains e.next) := by
      symm
      apply List.filter_eq_self.mpr
      intro e he
      have := (haddmem e he).1
      simpa using this
    rw [← haddsfull]
    refine ⟨?_, ?_, ?_⟩
    · rw [List.map_append]
      rw [List.nodup_append]
      refine ⟨htgts, haddnd, ?_⟩
      intro x hx hx2
      rcases List.mem_map.mp hx with ⟨e, he, hne⟩
      rcases List.mem_map.mp hx2 with ⟨e2, he2, hne2⟩
      have hfacts := haddmem e2 he2
      apply hfacts.2.2
      rw [hne2, ← hne]
      exact List.mem_map_of_mem _ (List.mem_filter.mp he).1
    · intro e he
      rcases List.mem_append.mp he with h | h
      · exact hself e (List.mem_filter.mp h).1
      · exact (haddmem e h).2.1
    · rw [List.length_append, haddlen, hclen]
      have hmap : ((ts.filter (fun t =>
          (layout.map (fun n => n.name)).contains t.next)).map
          (fun e => e.next)).length =
          (ts.filter (fun t =>
            (layout.map (fun n => n.name)).contains t.next)).length :=
        List.length_map _ _
      omega

theorem mget_fillOne_self (layout : List LayoutNode) (m : TransMap)
    (v : LayoutNode) :
    mget (fillOne layout m v) v.name =
      some (fillEntry layout v ((mget m v.name).getD [])) := by
  unfold fillOne
  exact mget_mset_self _ _ _

theorem mget_fillOne_ne (layout : List LayoutNode) (m : TransMap)
    (w : LayoutNode) (k : String) (h : w.name ≠ k) :
    mget (fillOne layout m w) k = mget m k := by
  unfold fillOne
  rw [mget_mset_ne _ _ _ _ (fun hh => h hh.symm)]
  split
  · rfl
  · rw [mget_mset_ne _ _ _ _ (fun hh => h hh.symm)]

theorem mget_foldl_fillOne_ne (layout : List LayoutNode)
    (process : List LayoutNode) (m : TransMap) (k : String)
    (h : ∀ u ∈ process, u.name ≠ k) :
    mget (process.foldl (fillOne layout) m) k = mget m k := by
  induction process generalizing m with
  | nil => rfl
  | cons w ws ih =>
    simp only [List.foldl_cons]
    rw [ih _ (fun u hu => h u (List.mem_cons_of_mem w hu)),
      mget_fillOne_ne layout m w k (h w (List.mem_cons_self w ws))]

theorem mget_foldl_fillOne (layout : List LayoutNode)
    (process : List LayoutNode) (m : TransMap) (v : LayoutNode)
    (hnd : (process.map (fun n => n.name)).Nodup) (hv : v ∈ process) :
    mget (process.foldl (fillOne layout) m) v.name =
      some (fillEntry layout v ((mget m v.name).getD [])) := by
  induction process generalizing m with
  | nil => simp at hv
  | cons w ws ih =>
    simp only [List.foldl_cons]
    rw [List.map_cons, List.nodup_cons] at hnd
    rcases List.mem_cons.mp hv with hvw | hvs
    · subst hvw
      rw [mget_foldl_fillOne_ne layout ws _ _
        (fun u hu hh => hnd.1 (by rw [← hh]; exact List.mem_map_of_mem _ hu))]
      exact mget_fillOne_self layout m v
    · rw [ih _ hnd.2 hvs,
        mget_fillOne_ne layout m w v.name
          (fun hh => hnd.1 (by rw [hh]; exact List.mem_map_of_mem _ hvs))]

set_option maxHeartbeats 2000000 in
/-- C1 (counterexample): with a raw self-loop row `1 → 1`, the node `I`
of the layout appears among its own top successors — "none equal to the
node itself" fails on the code as stated. -/
theorem c1_self_successor_counterexample :
    ("I" ∈ exLayout.map (fun n => n.name)) ∧
    ((topSuccessors "I" (processData selfLoopTrans exLayout)
      (exLayout.map (fun n => n.name)) 5).map
        (fun e => e.next)).contains "I" = true := by
  exact ⟨by decide, by decide⟩

set_option maxHeartbeats 1000000 in
/-- C1 (amended: requires the raw data to give each layout node no
self-loop and pairwise distinct layout targets — `GoodEntry`, which the
shipped statistics satisfy): for every node of the layout, after graph
construction `topSuccessors` returns exactly `min 5 (n − 1)` edges with
pairwise distinct targets, none of them the node itself. -/
theorem c1_graph_completeness (transTable : List TransRow)
    (layout : List LayoutNode)
    (hnd : (layout.map (fun n => n.name)).Nodup)
    (hgood : ∀ v ∈ layout, GoodEntry v.name (layout.map (fun n => n.name))
      ((mget (preFillTransitions transTable layout) v.name).getD []))
    (v : LayoutNode) (hv : v ∈ layout) :
    (topSuccessors v.name (processData transTable layout)
      (layout.map (fun n => n.name)) 5).length = min 5 (layout.length - 1) ∧
    ((topSuccessors v.name (processData transTable layout)
      (layout.map (fun n => n.name)) 5).map (fun e => e.next)).Nodup ∧
    ∀ e ∈ topSuccessors v.name (processData transTable layout)
      (layout.map (fun n => n.name)) 5, e.next ≠ v.name := by
  have hget : mget (processData transTable layout) v.name =
      some (fillEntry layout v
        ((mget (preFillTransitions transTable layout) v.name).getD [])) :=
    mget_foldl_fillOne layout layout _ v hnd hv
  obtain ⟨hnodup, hnoself, hmin⟩ := fillEntry_valid layout v
    ((mget (preFillTransitions transTable layout) v.name).getD [])
    hnd hv (hgood v hv)
  unfold topSuccessors
  rw [hget]
  simp only [Option.getD_some]
  generalize hV : (fillEntry layout v
      ((mget (preFillTransitions transTable layout) v.name).getD [])).filter
      (fun t => (layout.map (fun n => n.name)).contains t.next) = valid
    at hnodup hnoself hmin ⊢
  have hperm := sortBy_perm probGt valid
  refine ⟨?_, ?_, ?_⟩
  · rw [List.length_take, hperm.length_eq]
    exact hmin
  · have hbig : ((sortBy probGt valid).map (fun e => e.next)).Nodup :=
      ((hperm.map (fun e => e.next)).nodup_iff).mpr hnodup
    exact ((List.take_sublist 5 (sortBy probGt valid)).map
      (fun e => e.next)).nodup hbig
  · intro e he
    exact hnoself e (hperm.mem_iff.mp
      ((List.take_sublist 5 (sortBy probGt valid)).subset he))

/-- C1 (witness): the amended theorem at the empty raw table over the
7-node example layout — node `I` gets exactly `min 5 6 = 5` distinct
non-self top successors. -/
theorem c1_graph_completeness_witness :
    (topSuccessors (LayoutNode.mk "I" "Tonic" 1).name (processData [] exLayout)
      (exLayout.map (fun n => n.name)) 5).length = min 5 (exLayout.length - 1) ∧
    ((topSuccessors (LayoutNode.mk "I" "Tonic" 1).name (processData [] exLayout)
      (exLayout.map (fun n => n.name)) 5).map (fun e => e.next)).Nodup ∧
    ∀ e ∈ topSuccessors (LayoutNode.mk "I" "Tonic" 1).name
      (processData [] exLayout) (exLayout.map (fun n => n.name)) 5,
      e.next ≠ (LayoutNode.mk "I" "Tonic" 1).name :=
  c1_graph_completeness [] exLayout (by decide) (by decide)
    (LayoutNode.mk "I" "Tonic" 1) (by decide)

/-! ### C4: the orbit timer discipline -/

theorem isPhaseCb_eq_false {cb : Orbit.TimerCb}
    (h : Orbit.isPhaseCb cb = false) : cb = Orbit.TimerCb.ghost := by
  cases cb <;> simp_all [Orbit.isPhaseCb]

theorem orbitClearTimers_spec (s : Orbit.St)
    (h3 : ∀ p ∈ s.pending, Orbit.isPhaseCb p.2 = true → s.orbitTimer = some p.1)
    (h4 : ∀ p ∈ s.pending, p.2 = Orbit.TimerCb.ghost → p.1 ∈ s.ghostTimers) :
    (Orbit.orbitClearTimers s).pending = [] ∧
    (Orbit.orbitClearTimers s).orbitTimer = none ∧
    (Orbit.orbitClearTimers s).ghostTimers = [] ∧
    (Orbit.orbitClearTimers s).orbitMode = s.orbitMode ∧
    (Orbit.orbitClearTimers s).phase = s.phase ∧
    (Orbit.orbitClearTimers s).nextId = s.nextId ∧
    (Orbit.orbitClearTimers s).hasNextNode = s.hasNextNode ∧
    (Orbit.orbitClearTimers s).hasCenterNode = s.hasCenterNode ∧
    (Orbit.orbitClearTimers s).burstCount = s.burstCount := by
  cases hot : s.orbitTimer with
  | none =>
    have he : Orbit.orbitClearTimers s = Orbit.clearGhostNotes s := by
      unfold Orbit.orbitClearTimers
      rw [hot]
    rw [he]
    refine ⟨?_, hot, rfl, rfl, rfl, rfl, rfl, rfl, rfl⟩
    show s.pending.filter _ = []
    rw [List.filter_eq_nil_iff]
    intro p hp
    have hg : p.2 = Orbit.TimerCb.ghost := by
      cases hpc : Orbit.isPhaseCb p.2 with
      | false => exact isPhaseCb_eq_false hpc
      | true => exact absurd (h3 p hp hpc) (by rw [hot]; simp)
    have hmem := h4 p hp hg
    simp [hmem]
  | some tid =>
    have he : Orbit.orbitClearTimers s
        = Orbit.clearGhostNotes { Orbit.clearTimeout tid s with orbitTimer := none } := by
      unfold Orbit.orbitClearTimers
      rw [hot]
    rw [he]
    refine ⟨?_, rfl, rfl, rfl, rfl, rfl, rfl, rfl, rfl⟩
    show (s.pending.filter _).filter _ = []
    rw [List.filter_eq_nil_iff]
    intro p hp
    obtain ⟨hps, hpid⟩ := List.mem_filter.mp hp
    have hpid2 : p.1 ≠ tid := by simpa using hpid
    have hg : p.2 = Orbit.TimerCb.ghost := by
      cases hpc : Orbit.isPhaseCb p.2 with
      | false => exact isPhaseCb_eq_false hpc
      | true =>
        exact absurd (Option.some.inj ((h3 p hps hpc).symm.trans hot)) hpid2
    have hmem := h4 p hps hg
    simp [Orbit.clearTimeout, hmem]

theorem pushGhosts_spec (k : ℕ) : ∀ (s : Orbit.St),
    (∀ p ∈ s.pending, p.1 < s.nextId) →
    (s.pending.map Prod.fst).Nodup →
    (∀ p ∈ s.pending, p.2 = Orbit.TimerCb.ghost) →
    (∀ p ∈ s.pending, p.1 ∈ s.ghostTimers) →
    (∀ p ∈ (Orbit.pushGhosts k s).pending, p.1 < (Orbit.pushGhosts k s).nextId) ∧
    ((Orbit.pushGhosts k s).pending.map Prod.fst).Nodup ∧
    (∀ p ∈ (Orbit.pushGhosts k s).pending, p.2 = Orbit.TimerCb.ghost) ∧
    (∀ p ∈ (Orbit.pushGhosts k s).pending,
      p.1 ∈ (Orbit.pushGhosts k s).ghostTimers) ∧
    (Orbit.pushGhosts k s).orbitTimer = s.orbitTimer ∧
    (Orbit.pushGhosts k s).orbitMode = s.orbitMode ∧
    (Orbit.pushGhosts k s).phase = s.phase := by
  induction k with
  | zero => exact fun s h1 h2 hg h4 => ⟨h1, h2, hg, h4, rfl, rfl, rfl⟩
  | succ k ih =>
    intro s h1 h2 hg h4
    have heq : Orbit.pushGhosts (k + 1) s = Orbit.pushGhosts k
        { s with pending := s.pending ++ [(s.nextId, Orbit.TimerCb.ghost)]
                 nextId := s.nextId + 1
                 ghostTimers := s.ghostTimers ++ [s.nextId] } := rfl
    rw [heq]
    refine ih _ ?_ ?_ ?_ ?_
    · intro p hp
      rcases List.mem_append.mp hp with hl | hr
      · exact Nat.lt_trans (h1 p hl) (Nat.lt_succ_self _)
      · simp at hr
        simp [hr]
    · rw [List.map_append]
      refine List.nodup_append.mpr ⟨h2, by simp, ?_⟩
      intro a ha hb
      simp at hb
      obtain ⟨p, hps, hpa⟩ := List.mem_map.mp ha
      have := h1 p hps
      omega
    · intro p hp
      rcases List.mem_append.mp hp with hl | hr
      · exact hg p hl
      · simp at hr
        simp [hr]
    · intro p hp
      rcases List.mem_append.mp hp with hl | hr
      · exact List.mem_append_left _ (h4 p hl)
      · simp at hr
        simp [hr]

theorem inv_startSilence (gk : ℕ) (s : Orbit.St)
    (hm : s.orbitMode = true)
    (h1 : ∀ p ∈ s.pending, p.1 < s.nextId)
    (hg : ∀ p ∈ s.pending, p.2 = Orbit.TimerCb.ghost)
    (h4 : ∀ p ∈ s.pending, p.1 ∈ s.ghostTimers) :
    Orbit.Inv (Orbit.startSilence gk s) := by
  unfold Orbit.startSilence
  rw [if_neg (by simp [hm])]
  unfold Orbit.scheduleGhostNotes
  have hpe : (Orbit.clearGhostNotes { s with phase := Orbit.OPhase.silence }).pending
      = [] := by
    unfold Orbit.clearGhostNotes
    rw [List.filter_eq_nil_iff]
    intro p hp
    have := h4 p hp
    simp [this]
  obtain ⟨u1, u2, u3, u4, u5, u6, u7⟩ :=
    pushGhosts_spec gk (Orbit.clearGhostNotes { s with phase := Orbit.OPhase.silence })
      (by rw [hpe]; intro p hp; simp at hp)
      (by rw [hpe]; simp)
      (by rw [hpe]; intro p hp; simp at hp)
      (by rw [hpe]; intro p hp; simp at hp)
  dsimp only [Orbit.schedule]
  set u := Orbit.pushGhosts gk
    (Orbit.clearGhostNotes { s with phase := Orbit.OPhase.silence }) with hu
  refine ⟨?_, ?_, ?_, ?_, ?_, ?_⟩
  · intro p hp
    rcases List.mem_append.mp hp with hl | hr
    · exact Nat.lt_trans (u1 p hl) (Nat.lt_succ_self _)
    · simp at hr
      simp [hr]
  · rw [List.map_append]
    refine List.nodup_append.mpr ⟨u2, by simp, ?_⟩
    intro a ha hb
    simp at hb
    obtain ⟨p, hps, hpa⟩ := List.mem_map.mp ha
    have := u1 p hps
    omega
  · intro p hp hph
    rcases List.mem_append.mp hp with hl | hr
    · exact absurd (by rw [u3 p hl]; rfl) (by simp [hph] : ¬Orbit.isPhaseCb p.2 = false)
    · simp at hr
      simp [hr]
  · intro p hp hpg
    rcases List.mem_append.mp hp with hl | hr
    · exact u4 p hl
    · simp at hr
      rw [hr] at hpg
      simp at hpg
  · intro hcontra
    rw [u6] at hcontra
    have : s.orbitMode = false := hcontra
    rw [hm] at this
    exact absurd this (by simp)
  · intro hor
    rw [u7] at hor
    have : Orbit.OPhase.silence = Orbit.OPhase.centering ∨
        Orbit.OPhase.silence = Orbit.OPhase.idle := hor
    rcases this with h | h <;> exact absurd h (by simp)

theorem inv_playBurst (s : Orbit.St) (h : Orbit.Inv s) :
    Orbit.Inv (Orbit.playBurst s).1 := by
  obtain ⟨h1, h2, h3, h4, h5, h6⟩ := h
  unfold Orbit.playBurst
  split
  · exact ⟨h1, h2, h3, h4, h5, h6⟩
  · next hguard =>
    have hmode : s.orbitMode = true ∧ s.hasNextNode = true := by
      constructor <;> cases hcm : s.orbitMode <;> cases hcn : s.hasNextNode <;>
        simp_all
    obtain ⟨e1, e2, e3, e4, e5, e6, e7, e8, e9⟩ :=
      orbitClearTimers_spec { s with phase := Orbit.OPhase.bursting } h3 h4
    dsimp only [Orbit.schedule]
    refine ⟨?_, ?_, ?_, ?_, ?_, ?_⟩
    · intro p hp
      rw [e1] at hp
      simp at hp
      simp [hp]
    · rw [e1]
      simp
    · intro p hp hph
      rw [e1] at hp
      simp at hp
      simp [hp]
    · intro p hp hpg
      rw [e1] at hp
      simp at hp
      rw [hp] at hpg
      simp at hpg
    · intro hcontra
      rw [e4] at hcontra
      have : s.orbitMode = false := hcontra
      rw [hmode.1] at this
      exact absurd this (by simp)
    · intro hor
      rw [e5] at hor
      have : Orbit.OPhase.bursting = Orbit.OPhase.centering ∨
          Orbit.OPhase.bursting = Orbit.OPhase.idle := hor
      rcases this with hx | hx <;> exact absurd hx (by simp)

theorem inv_execCb (s : Orbit.St) (h : Orbit.Inv s)
    (cb : Orbit.TimerCb) (gk : ℕ) (bc : ℤ)
    (hnophase : Orbit.isPhaseCb cb = true →
      ∀ p ∈ s.pending, p.2 = Orbit.TimerCb.ghost)
    (hphase : Orbit.isPhaseCb cb = true →
      s.phase ≠ Orbit.OPhase.centering ∧ s.phase ≠ Orbit.OPhase.idle) :
    Orbit.Inv (Orbit.execCb cb gk bc s).1 := by
  obtain ⟨h1, h2, h3, h4, h5, h6⟩ := h
  cases cb with
  | burstEnd =>
    cases hcm : s.orbitMode with
    | false =>
      have he : Orbit.execCb Orbit.TimerCb.burstEnd gk bc s = (s, []) := by
        unfold Orbit.execCb
        rw [hcm]
        rfl
      rw [he]
      exact ⟨h1, h2, h3, h4, h5, h6⟩
    | true =>
      have hgall := hnophase rfl
      have he : Orbit.execCb Orbit.TimerCb.burstEnd gk bc s
          = if 0 < s.burstCount - 1 then
              ({ s with burstCount := s.burstCount - 1
                        pending := s.pending ++ [(s.nextId, Orbit.TimerCb.gapFire)]
                        nextId := s.nextId + 1
                        orbitTimer := some s.nextId }, [Orbit.Fx.stopChord])
            else (Orbit.startSilence gk { s with burstCount := s.burstCount - 1 },
              [Orbit.Fx.stopChord]) := by
        unfold Orbit.execCb
        rw [hcm]
        rfl
      rw [he]
      split
      · refine ⟨?_, ?_, ?_, ?_, ?_, ?_⟩
        · intro p hp
          rcases List.mem_append.mp hp with hl | hr
          · exact Nat.lt_trans (h1 p hl) (Nat.lt_succ_self _)
          · simp at hr
            simp [hr]
        · rw [List.map_append]
          refine List.nodup_append.mpr ⟨h2, by simp, ?_⟩
          intro a ha hb
          simp at hb
          obtain ⟨p, hps, hpa⟩ := List.mem_map.mp ha
          have := h1 p hps
          omega
        · intro p hp hph
          rcases List.mem_append.mp hp with hl | hr
          · exact absurd (by rw [hgall p hl]; rfl)
              (by simp [hph] : ¬Orbit.isPhaseCb p.2 = false)
          · simp at hr
            simp [hr]
        · intro p hp hpg
          rcases List.mem_append.mp hp with hl | hr
          · exact h4 p hl hpg
          · simp at hr
            rw [hr] at hpg
            simp at hpg
        · intro hcontra
          exact absurd (hcm.symm.trans hcontra) (by simp)
        · intro hor
          exact absurd hor (by
            have := hphase rfl
            simpa using this)
      · exact inv_startSilence gk _ hcm h1 hgall
          (fun p hp => h4 p hp (hgall p hp))
  | gapFire =>
    cases hcm : s.orbitMode with
    | false =>
      have he : Orbit.execCb Orbit.TimerCb.gapFire gk bc s = (s, []) := by
        unfold Orbit.execCb
        rw [hcm]
        rfl
      rw [he]
      exact ⟨h1, h2, h3, h4, h5, h6⟩
    | true =>
      have he : Orbit.execCb Orbit.TimerCb.gapFire gk bc s = Orbit.playBurst s := by
        unfold Orbit.execCb
        rw [hcm]
        rfl
      rw [he]
      exact inv_playBurst s ⟨h1, h2, h3, h4, h5, h6⟩
  | silenceEnd =>
    cases hcm : s.orbitMode with
    | false =>
      have he : Orbit.execCb Orbit.TimerCb.silenceEnd gk bc s = (s, []) := by
        unfold Orbit.execCb
        rw [hcm]
        rfl
      rw [he]
      exact ⟨h1, h2, h3, h4, h5, h6⟩
    | true =>
      have he : Orbit.execCb Orbit.TimerCb.silenceEnd gk bc s
          = (Orbit.autoSelectNext bc s, []) := by
        unfold Orbit.execCb
        rw [hcm]
        rfl
      rw [he]
      show Orbit.Inv (Orbit.autoSelectNext bc s)
      unfold Orbit.autoSelectNext
      split
      · exact ⟨h1, h2, h3, h4, h5, h6⟩
      · unfold Orbit.beginCentering
        refine ⟨h1, h2, h3, h4, ?_, ?_⟩
        · intro hcontra
          exact absurd (hcm.symm.trans hcontra) (by simp)
        · intro _ p hp
          exact hnophase rfl p hp
  | ghost =>
    have he : (Orbit.execCb Orbit.TimerCb.ghost gk bc s).1 = s := by
      show (if (s.orbitMode && decide (s.phase = Orbit.OPhase.silence)) = true
          then (s, [Orbit.Fx.ghostTone]) else (s, ([] : List Orbit.Fx))).1 = s
      cases hcond : s.orbitMode && decide (s.phase = Orbit.OPhase.silence) <;> rfl
    rw [he]
    exact ⟨h1, h2, h3, h4, h5, h6⟩

theorem inv_toggle (s : Orbit.St) (h : Orbit.Inv s) (se : Bool) (bc : ℤ) :
    Orbit.Inv (Orbit.toggleOrbit se bc s) := by
  obtain ⟨h1, h2, h3, h4, h5, h6⟩ := h
  unfold Orbit.toggleOrbit
  split
  · next hmode =>
    have hm : s.orbitMode = false := by
      cases hcm : s.orbitMode <;> simp_all
    obtain ⟨hp, hgt⟩ := h5 hm
    split
    · unfold Orbit.beginCentering
      refine ⟨?_, ?_, ?_, ?_, ?_, ?_⟩ <;> simp [hp]
    · refine ⟨?_, ?_, ?_, ?_, ?_, ?_⟩ <;> simp [hp]
  · obtain ⟨e1, e2, e3, e4, e5, e6, e7, e8, e9⟩ :=
      orbitClearTimers_spec { s with
          orbitMode := false, phase := Orbit.OPhase.idle,
          hasNextNode := false, burstCount := 0, hasCenterNode := false } h3 h4
    refine ⟨?_, ?_, ?_, ?_, fun _ => ⟨e1, e3⟩, ?_⟩ <;> simp [e1]

theorem inv_click (s : Orbit.St) (h : Orbit.Inv s) (bc : ℤ) :
    Orbit.Inv (Orbit.onNodeClick bc s) := by
  unfold Orbit.onNodeClick
  split
  · exact h
  · next hmode =>
    obtain ⟨h1, h2, h3, h4, h5, h6⟩ := h
    have hm : s.orbitMode = true := by
      cases hcm : s.orbitMode <;> simp_all
    obtain ⟨e1, e2, e3, e4, e5, e6, e7, e8, e9⟩ := orbitClearTimers_spec s h3 h4
    unfold Orbit.beginCentering
    refine ⟨?_, ?_, ?_, ?_, ?_, ?_⟩ <;> simp [e1, e4, hm]

theorem inv_frame (s : Orbit.St) (h : Orbit.Inv s) :
    Orbit.Inv (Orbit.frameCenterDone s) := by
  unfold Orbit.frameCenterDone
  split
  · exact inv_playBurst s h
  · exact h

theorem inv_step (s : Orbit.St) (h : Orbit.Inv s) (e : Orbit.Ev) :
    Orbit.Inv (Orbit.step s e) := by
  cases e with
  | toggle se bc => exact inv_toggle s h se bc
  | click bc => exact inv_click s h bc
  | frame => exact inv_frame s h
  | fire tid gk bc =>
    show Orbit.Inv (match s.pending.find? (fun p => p.1 = tid) with
      | none => s
      | some p => (Orbit.execCb p.2 gk bc
          { s with pending := s.pending.filter (fun q => q.1 ≠ tid) }).1)
    cases hf : s.pending.find? (fun p => p.1 = tid) with
    | none => exact h
    | some p =>
      obtain ⟨h1, h2, h3, h4, h5, h6⟩ := h
      have hpmem : p ∈ s.pending := List.mem_of_find?_eq_some hf
      have hpid : p.1 = tid := by
        have := List.find?_some hf
        simpa using this
      refine inv_execCb _ ⟨?_, ?_, ?_, ?_, ?_, ?_⟩ p.2 gk bc ?_ ?_
      · intro q hq
        exact h1 q (List.mem_of_mem_filter hq)
      · exact ((List.filter_sublist _).map Prod.fst).nodup h2
      · intro q hq hph
        exact h3 q (List.mem_of_mem_filter hq) hph
      · intro q hq hqg
        exact h4 q (List.mem_of_mem_filter hq) hqg
      · intro hm
        obtain ⟨hp, hgt⟩ := h5 hm
        constructor
        · show List.filter _ s.pending = []
          rw [hp]
          rfl
        · exact hgt
      · intro hor q hq
        exact h6 hor q (List.mem_of_mem_filter hq)
      · intro hph q hq
        obtain ⟨hqs, hqid⟩ := List.mem_filter.mp hq
        have hqid2 : q.1 ≠ tid := by simpa using hqid
        cases hqc : Orbit.isPhaseCb q.2 with
        | false => exact isPhaseCb_eq_false hqc
        | true =>
          exfalso
          have ep := h3 p hpmem hph
          have eq2 := h3 q hqs hqc
          apply hqid2
          rw [← hpid]
          exact Option.some.inj (eq2.symm.trans ep)
      · intro hph
        constructor
        · intro hcen
          have hall := h6 (Or.inl hcen) p hpmem
          rw [hall] at hph
          exact absurd hph (by simp [Orbit.isPhaseCb])
        · intro hidl
          have hall := h6 (Or.inr hidl) p hpmem
          rw [hall] at hph
          exact absurd hph (by simp [Orbit.isPhaseCb])

theorem inv_init : Orbit.Inv Orbit.init := by
  refine ⟨?_, ?_, ?_, ?_, ?_, ?_⟩ <;>
    simp [Orbit.init]

theorem runEvents_inv (evs : List Orbit.Ev) : Orbit.Inv (Orbit.runEvents evs) := by
  unfold Orbit.runEvents
  suffices hgen : ∀ (s : Orbit.St), Orbit.Inv s → Orbit.Inv (evs.foldl Orbit.step s) from
    hgen Orbit.init inv_init
  induction evs with
  | nil => exact fun s hs => hs
  | cons e rest ih => exact fun s hs => ih _ (inv_step s hs e)

theorem execCb_off (s : Orbit.St) (hm : s.orbitMode = false)
    (cb : Orbit.TimerCb) (gk : ℕ) (bc : ℤ) :
    Orbit.execCb cb gk bc s = (s, []) := by
  cases cb <;> simp [Orbit.execCb, hm]

theorem execCb_ghost_centering (s : Orbit.St)
    (hp : s.phase = Orbit.OPhase.centering) (gk : ℕ) (bc : ℤ) :
    Orbit.execCb Orbit.TimerCb.ghost gk bc s = (s, []) := by
  simp [Orbit.execCb, hp]

theorem phase_entries_le_one (s : Orbit.St) (h : Orbit.Inv s) :
    (s.pending.filter (fun p => Orbit.isPhaseCb p.2)).length ≤ 1 := by
  obtain ⟨h1, h2, h3, h4, h5, h6⟩ := h
  cases hl : s.pending.filter (fun p => Orbit.isPhaseCb p.2) with
  | nil => simp
  | cons p rest =>
    cases rest with
    | nil => simp
    | cons q rest2 =>
      exfalso
      have hpmem : p ∈ s.pending ∧ Orbit.isPhaseCb p.2 = true := by
        have hx : p ∈ s.pending.filter (fun p => Orbit.isPhaseCb p.2) := by
          rw [hl]; simp
        simpa using List.mem_filter.mp hx
      have hqmem : q ∈ s.pending ∧ Orbit.isPhaseCb q.2 = true := by
        have hx : q ∈ s.pending.filter (fun p => Orbit.isPhaseCb p.2) := by
          rw [hl]; simp
        simpa using List.mem_filter.mp hx
      have hp3 := h3 p hpmem.1 hpmem.2
      have hq3 := h3 q hqmem.1 hqmem.2
      have hpq : p.1 = q.1 := Option.some.inj (hp3.symm.trans hq3)
      have hfnd : ((s.pending.filter (fun p => Orbit.isPhaseCb p.2)).map
          Prod.fst).Nodup :=
        ((List.filter_sublist _).map Prod.fst).nodup h2
      rw [hl] at hfnd
      exact (List.nodup_cons.mp hfnd).1 (by rw [hpq]; simp)

/-- C4: timer discipline of the orbit controller.  After any event
sequence from startup (toggles, node clicks, centering completions and
timer deliveries): at most one orbit phase timer (burst-end, gap or
silence-end) is pending; when the orbit is off — in particular
immediately after a deactivating toggle — no timeout of any kind is
pending and no ghost handle is retained, and every callback body is a
no-op producing no audio; and once a new centering cycle has begun, every
still-pending timeout is a ghost-note timeout whose body is a no-op. -/
theorem c4_timer_discipline (evs : List Orbit.Ev) :
    ((Orbit.runEvents evs).pending.filter
      (fun p => Orbit.isPhaseCb p.2)).length ≤ 1 ∧
    ((Orbit.runEvents evs).orbitMode = false →
      (Orbit.runEvents evs).pending = [] ∧
      (Orbit.runEvents evs).ghostTimers = []) ∧
    ((Orbit.runEvents evs).orbitMode = false →
      ∀ cb gk bc, Orbit.execCb cb gk bc (Orbit.runEvents evs)
        = (Orbit.runEvents evs, [])) ∧
    ((Orbit.runEvents evs).phase = Orbit.OPhase.centering →
      (∀ p ∈ (Orbit.runEvents evs).pending, p.2 = Orbit.TimerCb.ghost) ∧
      ∀ gk bc, Orbit.execCb Orbit.TimerCb.ghost gk bc (Orbit.runEvents evs)
        = (Orbit.runEvents evs, [])) := by
  have h := runEvents_inv evs
  exact ⟨phase_entries_le_one _ h,
    fun hm => h.2.2.2.2.1 hm,
    fun hm cb gk bc => execCb_off _ hm cb gk bc,
    fun hph => ⟨h.2.2.2.2.2 (Or.inl hph),
      fun gk bc => execCb_ghost_centering _ hph gk bc⟩⟩

/-- C4 (witness): a concrete activate–center–deactivate run: after the
deactivating toggle nothing is pending and no ghost handle is retained;
the phase-timer count bound holds; and right after activation (phase
`centering`) a ghost delivery would be a no-op. -/
theorem c4_timer_discipline_witness :
    ((Orbit.runEvents [Orbit.Ev.toggle true 5, Orbit.Ev.frame,
        Orbit.Ev.toggle true 2]).pending = [] ∧
      (Orbit.runEvents [Orbit.Ev.toggle true 5, Orbit.Ev.frame,
        Orbit.Ev.toggle true 2]).ghostTimers = []) ∧
    ((Orbit.runEvents [Orbit.Ev.toggle true 5, Orbit.Ev.frame,
        Orbit.Ev.toggle true 2]).pending.filter
      (fun p => Orbit.isPhaseCb p.2)).length ≤ 1 ∧
    Orbit.execCb Orbit.TimerCb.ghost 3 7
        (Orbit.runEvents [Orbit.Ev.toggle true 5])
      = (Orbit.runEvents [Orbit.Ev.toggle true 5], []) :=
  ⟨(c4_timer_discipline [Orbit.Ev.toggle true 5, Orbit.Ev.frame,
      Orbit.Ev.toggle true 2]).2.1 (by decide),
   (c4_timer_discipline [Orbit.Ev.toggle true 5, Orbit.Ev.frame,
      Orbit.Ev.toggle true 2]).1,
   ((c4_timer_discipline [Orbit.Ev.toggle true 5]).2.2.2 (by decide)).2 3 7⟩

/-- C10 (witness): applied to a node that is in the computed visible set
of the self-loop example (center `"I"` of `exLayout`). -/
theorem c10_is_orbit_visible_witness :
    isOrbitVisible ⟨true,
        orbitArrangeVisible (processData selfLoopTrans exLayout) exNames "I"⟩ "II" = true :=
  ((c10_is_orbit_visible ⟨true,
      orbitArrangeVisible (processData selfLoopTrans exLayout) exNames "I"⟩ "II").2.2
    (processData selfLoopTrans exLayout) exNames "I").mpr (by decide)


/-! ### C2: JSON printer/parser inverse lemmas -/

theorem parseStrBody_print (s : List Char) (rest : List Char)
    (hw : wfStr s = true) : parseStrBody (s ++ '"' :: rest) = some (s, rest) := by
  induction s with
  | nil =>
    show parseStrBody ('"' :: rest) = _
    simp [parseStrBody]
  | cons c cs ih =>
    simp only [wfStr, List.all_cons, Bool.and_eq_true, decide_eq_true_eq] at hw
    show parseStrBody (c :: (cs ++ '"' :: rest)) = _
    unfold parseStrBody
    rw [if_neg hw.1.1.1, ih hw.2]
    rfl

theorem digitChar_isDigit : ∀ d < 10, (digitChar d).isDigit = true := by decide

theorem digitChar_toNat : ∀ d < 10, (digitChar d).toNat = 48 + d := by decide

theorem natDigitsAux_fuel (n : ℕ) : ∀ (fuel : ℕ) (acc : List Char), n < fuel →
    natDigitsAux fuel n acc = natDigits n ++ acc := by
  induction n using Nat.strong_induction_on with
  | _ n ih =>
    intro fuel acc hf
    match fuel, hf with
    | fuel + 1, hf =>
      by_cases h10 : n < 10
      · show natDigitsAux (fuel + 1) n acc = natDigitsAux (n + 1) n [] ++ acc
        unfold natDigitsAux
        rw [if_pos h10, if_pos h10]
        rfl
      · have hd : n / 10 < n := Nat.div_lt_self (by omega) (by omega)
        have hstep : natDigitsAux (fuel + 1) n acc
            = natDigitsAux fuel (n / 10) (digitChar (n % 10) :: acc) := by
          conv_lhs => rw [natDigitsAux]
          rw [if_neg h10]
        have hself : natDigits n = natDigits (n / 10) ++ [digitChar (n % 10)] := by
          show natDigitsAux (n + 1) n [] = _
          conv_lhs => rw [natDigitsAux]
          rw [if_neg h10]
          exact ih _ hd n _ (by omega)
        rw [hstep, ih _ hd fuel _ (by omega), hself]
        simp

theorem natDigits_lt10 (n : ℕ) (h10 : n < 10) : natDigits n = [digitChar n] := by
  show natDigitsAux (n + 1) n [] = _
  unfold natDigitsAux
  rw [if_pos h10]

theorem natDigits_ge10 (n : ℕ) (h10 : ¬n < 10) :
    natDigits n = natDigits (n / 10) ++ [digitChar (n % 10)] := by
  show natDigitsAux (n + 1) n [] = _
  conv_lhs => rw [natDigitsAux]
  rw [if_neg h10]
  exact natDigitsAux_fuel (n / 10) n _
    (by have := Nat.div_lt_self (show 0 < n by omega) (show 1 < 10 by omega); omega)

theorem natDigits_ne_nil (n : ℕ) : natDigits n ≠ [] := by
  by_cases h10 : n < 10
  · rw [natDigits_lt10 n h10]
    simp
  · rw [natDigits_ge10 n h10]
    simp

theorem natDigits_all_digits (n : ℕ) : ∀ c ∈ natDigits n, c.isDigit = true := by
  induction n using Nat.strong_induction_on with
  | _ n ih =>
    by_cases h10 : n < 10
    · rw [natDigits_lt10 n h10]
      intro c hc
      simp at hc
      subst hc
      exact digitChar_isDigit n h10
    · rw [natDigits_ge10 n h10]
      intro c hc
      rcases List.mem_append.mp hc with h | h
      · exact ih _ (Nat.div_lt_self (by omega) (by omega)) c h
      · simp at h
        subst h
        exact digitChar_isDigit _ (Nat.mod_lt _ (by omega))

theorem foldl_natDigits (n : ℕ) : ∀ i : ℕ,
    (natDigits n).foldl (fun a c => a * 10 + (c.toNat - 48)) i
      = i * 10 ^ (natDigits n).length + n := by
  induction n using Nat.strong_induction_on with
  | _ n ih =>
    intro i
    by_cases h10 : n < 10
    · rw [natDigits_lt10 n h10]
      simp [digitChar_toNat n h10]
    · have hd : n / 10 < n := Nat.div_lt_self (by omega) (by omega)
      rw [natDigits_ge10 n h10, List.foldl_append, ih _ hd i]
      simp only [List.foldl_cons, List.foldl_nil, List.length_append,
        List.length_singleton]
      rw [digitChar_toNat _ (Nat.mod_lt _ (by omega))]
      have hdm : n / 10 * 10 + n % 10 = n := by omega
      have hpow : (10 : ℕ) ^ ((natDigits (n / 10)).length + 1)
          = 10 ^ (natDigits (n / 10)).length * 10 := by
        rw [pow_succ]
      rw [hpow]
      calc (i * 10 ^ (natDigits (n / 10)).length + n / 10) * 10 + (48 + n % 10 - 48)
          = i * (10 ^ (natDigits (n / 10)).length * 10) + (n / 10 * 10 + n % 10) := by
            have : 48 + n % 10 - 48 = n % 10 := by omega
            rw [this]
            ring
        _ = i * (10 ^ (natDigits (n / 10)).length * 10) + n := by rw [hdm]

theorem foldDigits_natDigits (n : ℕ) : foldDigits (natDigits n) = n := by
  have := foldl_natDigits n 0
  simpa [foldDigits] using this

theorem foldDigits_replicate_zero (k : ℕ) (s : List Char) :
    foldDigits (List.replicate k '0' ++ s) = foldDigits s := by
  induction k with
  | zero => simp
  | succ k ih =>
    rw [List.replicate_succ, List.cons_append]
    show List.foldl _ (0 * 10 + ('0'.toNat - 48)) _ = _
    have h0 : 0 * 10 + ('0'.toNat - 48) = 0 := by decide
    rw [h0]
    exact ih

theorem numSafe_head (rest : List Char) (hr : numSafe rest = true) :
    ∀ c cs2, rest = c :: cs2 → c.isDigit = false := by
  intro c cs2 he
  subst he
  simp only [numSafe, Bool.not_or, Bool.and_eq_true, Bool.not_eq_true'] at hr
  exact hr.1

theorem takeWhile_digits_append (ds rest : List Char)
    (hd : ∀ c ∈ ds, c.isDigit = true)
    (hr : ∀ c cs2, rest = c :: cs2 → c.isDigit = false) :
    (ds ++ rest).takeWhile Char.isDigit = ds ∧
    (ds ++ rest).dropWhile Char.isDigit = rest := by
  induction ds with
  | nil =>
    simp only [List.nil_append]
    cases rest with
    | nil => simp
    | cons c cs =>
      have hc := hr c cs rfl
      constructor
      · rw [List.takeWhile_cons_of_neg (by simp [hc])]
      · rw [List.dropWhile_cons_of_neg (by simp [hc])]
  | cons c cs ih =>
    have hc := hd c (by simp)
    obtain ⟨h1, h2⟩ := ih (fun d hdm => hd d (by simp [hdm]))
    constructor
    · rw [List.cons_append, List.takeWhile_cons_of_pos (by simp [hc]), h1]
    · rw [List.cons_append, List.dropWhile_cons_of_pos (by simp [hc]), h2]



theorem leftPad_length (c : Char) (k : ℕ) (s : List Char) :
    (leftPad c k s).length = max k s.length := by
  simp [leftPad]
  omega

theorem leftPad_one (s : List Char) (h : s ≠ []) : leftPad '0' 1 s = s := by
  have hp : 0 < s.length := List.length_pos.mpr h
  have h0 : 1 - s.length = 0 := by omega
  simp [leftPad, h0]

theorem leftPad_zero_digits (k : ℕ) (s : List Char)
    (hs : ∀ c ∈ s, c.isDigit = true) :
    ∀ c ∈ leftPad '0' k s, c.isDigit = true := by
  intro c hc
  simp only [leftPad] at hc
  rcases List.mem_append.mp hc with h | h
  · rw [List.eq_of_mem_replicate h]
    decide
  · exact hs c h

theorem foldDigits_leftPad (k n : ℕ) :
    foldDigits (leftPad '0' k (natDigits n)) = n := by
  simp only [leftPad]
  rw [foldDigits_replicate_zero]
  exact foldDigits_natDigits n

theorem digit_ne_minus {c : Char} (h : c.isDigit = true) : c ≠ '-' := by
  intro he
  rw [he] at h
  exact absurd h (by decide)

theorem parseNumToken_int_pos (ds rest : List Char)
    (hds : ∀ c ∈ ds, c.isDigit = true) (hne : ds ≠ [])
    (hr : numSafe rest = true) :
    parseNumToken (ds ++ rest) = some (((foldDigits ds : ℤ), 0), rest) := by
  cases ds with
  | nil => exact absurd rfl hne
  | cons d ds2 =>
    have hd : d.isDigit = true := hds d (by simp)
    have hneg : ¬(((d :: ds2) ++ rest).head? = some '-') := by
      simp only [List.cons_append, List.head?_cons]
      intro h
      exact digit_ne_minus hd (Option.some.inj h)
    simp only [parseNumToken, if_neg hneg]
    obtain ⟨htw, hdw⟩ :=
      takeWhile_digits_append (d :: ds2) rest hds (numSafe_head rest hr)
    rw [htw, hdw, if_neg (by simp)]
    split
    · simp [numSafe] at hr
    · rfl

theorem parseNumToken_int_neg (ds rest : List Char)
    (hds : ∀ c ∈ ds, c.isDigit = true) (hne : ds ≠ [])
    (hr : numSafe rest = true) :
    parseNumToken ('-' :: (ds ++ rest))
      = some ((-(foldDigits ds : ℤ), 0), rest) := by
  have hneg : (('-' :: (ds ++ rest)).head? = some '-') := by simp
  simp only [parseNumToken, if_pos hneg, List.tail_cons]
  obtain ⟨htw, hdw⟩ :=
    takeWhile_digits_append ds rest hds (numSafe_head rest hr)
  rw [htw, hdw, if_neg (by simp [hne])]
  split
  · simp [numSafe] at hr
  · rfl

theorem parseNumToken_frac_pos (ds fs rest : List Char)
    (hds : ∀ c ∈ ds, c.isDigit = true) (hne : ds ≠ [])
    (hfs : ∀ c ∈ fs, c.isDigit = true) (hfne : fs ≠ [])
    (hr : numSafe rest = true) :
    parseNumToken (ds ++ '.' :: (fs ++ rest))
      = some (((foldDigits (ds ++ fs) : ℤ), fs.length), rest) := by
  cases ds with
  | nil => exact absurd rfl hne
  | cons d ds2 =>
    have hd : d.isDigit = true := hds d (by simp)
    have hneg : ¬(((d :: ds2) ++ '.' :: (fs ++ rest)).head? = some '-') := by
      simp only [List.cons_append, List.head?_cons]
      intro h
      exact digit_ne_minus hd (Option.some.inj h)
    simp only [parseNumToken, if_neg hneg]
    obtain ⟨htw, hdw⟩ := takeWhile_digits_append (d :: ds2) ('.' :: (fs ++ rest))
      hds (by
        intro c cs2 h
        have hc : c = '.' := by
          have := congrArg List.head? h
          simpa using this.symm
        rw [hc]
        decide)
    rw [htw, hdw, if_neg (by simp)]
    split
    · next cs2 heq =>
      have h2 : fs ++ rest = cs2 := by
        have := List.cons.injEq '.' (fs ++ rest) '.' cs2
        rw [this] at heq
        exact heq.2
      subst h2
      obtain ⟨htw2, hdw2⟩ :=
        takeWhile_digits_append fs rest hfs (numSafe_head rest hr)
      rw [htw2, hdw2, if_neg (by simp [hfne])]
    · next h =>
      exact (h (fs ++ rest) rfl).elim

theorem parseNumToken_frac_neg (ds fs rest : List Char)
    (hds : ∀ c ∈ ds, c.isDigit = true) (hne : ds ≠ [])
    (hfs : ∀ c ∈ fs, c.isDigit = true) (hfne : fs ≠ [])
    (hr : numSafe rest = true) :
    parseNumToken ('-' :: (ds ++ '.' :: (fs ++ rest)))
      = some ((-(foldDigits (ds ++ fs) : ℤ), fs.length), rest) := by
  have hneg : (('-' :: (ds ++ '.' :: (fs ++ rest))).head? = some '-') := by simp
  simp only [parseNumToken, if_pos hneg, List.tail_cons]
  obtain ⟨htw, hdw⟩ := takeWhile_digits_append ds ('.' :: (fs ++ rest))
    hds (by
      intro c cs2 h
      have hc : c = '.' := by
        have := congrArg List.head? h
        simpa using this.symm
      rw [hc]
      decide)
  rw [htw, hdw, if_neg (by simp [hne])]
  split
  · next cs2 heq =>
    have h2 : fs ++ rest = cs2 := by
      have := List.cons.injEq '.' (fs ++ rest) '.' cs2
      rw [this] at heq
      exact heq.2
    subst h2
    obtain ⟨htw2, hdw2⟩ :=
      takeWhile_digits_append fs rest hfs (numSafe_head rest hr)
    rw [htw2, hdw2, if_neg (by simp [hfne])]
  · next h =>
    exact (h (fs ++ rest) rfl).elim

theorem printNum_zero_nonneg (m : ℤ) (hm : ¬m < 0) :
    printNum m 0 = natDigits m.natAbs := by
  simp only [printNum, if_neg hm]
  simp [leftPad_one _ (natDigits_ne_nil _)]

theorem printNum_zero_neg (m : ℤ) (hm : m < 0) :
    printNum m 0 = '-' :: natDigits m.natAbs := by
  simp only [printNum, if_pos hm]
  simp [leftPad_one _ (natDigits_ne_nil _)]

theorem printNum_succ_nonneg (m : ℤ) (s : ℕ) (hm : ¬m < 0) :
    printNum m (s + 1)
      = (leftPad '0' (s + 1 + 1) (natDigits m.natAbs)).take
          ((leftPad '0' (s + 1 + 1) (natDigits m.natAbs)).length - (s + 1)) ++
        '.' :: (leftPad '0' (s + 1 + 1) (natDigits m.natAbs)).drop
          ((leftPad '0' (s + 1 + 1) (natDigits m.natAbs)).length - (s + 1)) := by
  simp only [printNum, if_neg hm, if_neg (show ¬(s + 1 = 0) by omega)]

theorem printNum_succ_neg (m : ℤ) (s : ℕ) (hm : m < 0) :
    printNum m (s + 1)
      = '-' :: ((leftPad '0' (s + 1 + 1) (natDigits m.natAbs)).take
          ((leftPad '0' (s + 1 + 1) (natDigits m.natAbs)).length - (s + 1)) ++
        '.' :: (leftPad '0' (s + 1 + 1) (natDigits m.natAbs)).drop
          ((leftPad '0' (s + 1 + 1) (natDigits m.natAbs)).length - (s + 1))) := by
  simp only [printNum, if_pos hm, if_neg (show ¬(s + 1 = 0) by omega)]

theorem parseNumToken_print (m : ℤ) (e : ℕ) (rest : List Char)
    (hr : numSafe rest = true) :
    parseNumToken (printNum m e ++ rest) = some ((m, e), rest) := by
  cases e with
  | zero =>
    by_cases hm : m < 0
    · rw [printNum_zero_neg m hm, List.cons_append,
        parseNumToken_int_neg _ _ (natDigits_all_digits _) (natDigits_ne_nil _) hr,
        foldDigits_natDigits]
      have : -(m.natAbs : ℤ) = m := by omega
      rw [this]
    · rw [printNum_zero_nonneg m hm,
        parseNumToken_int_pos _ _ (natDigits_all_digits _) (natDigits_ne_nil _) hr,
        foldDigits_natDigits]
      have : ((m.natAbs : ℤ)) = m := by omega
      rw [this]
  | succ s =>
    have hlen : (leftPad '0' (s + 1 + 1) (natDigits m.natAbs)).length = s + 1 + 1
        ∨ s + 1 + 1 < (leftPad '0' (s + 1 + 1) (natDigits m.natAbs)).length := by
      rw [leftPad_length]
      omega
    have hL : s + 1 + 1 ≤ (leftPad '0' (s + 1 + 1) (natDigits m.natAbs)).length := by
      rw [leftPad_length]
      omega
    have hdig := leftPad_zero_digits (s + 1 + 1) (natDigits m.natAbs)
      (natDigits_all_digits _)
    have htds : ∀ c ∈ (leftPad '0' (s + 1 + 1) (natDigits m.natAbs)).take
        ((leftPad '0' (s + 1 + 1) (natDigits m.natAbs)).length - (s + 1)),
        c.isDigit = true := fun c hc => hdig c (List.mem_of_mem_take hc)
    have htne : (leftPad '0' (s + 1 + 1) (natDigits m.natAbs)).take
        ((leftPad '0' (s + 1 + 1) (natDigits m.natAbs)).length - (s + 1)) ≠ [] := by
      intro h
      have := congrArg List.length h
      rw [List.length_take] at this
      simp at this
      omega
    have hfds : ∀ c ∈ (leftPad '0' (s + 1 + 1) (natDigits m.natAbs)).drop
        ((leftPad '0' (s + 1 + 1) (natDigits m.natAbs)).length - (s + 1)),
        c.isDigit = true := fun c hc => hdig c (List.mem_of_mem_drop hc)
    have hfne : (leftPad '0' (s + 1 + 1) (natDigits m.natAbs)).drop
        ((leftPad '0' (s + 1 + 1) (natDigits m.natAbs)).length - (s + 1)) ≠ [] := by
      intro h
      have := congrArg List.length h
      rw [List.length_drop] at this
      simp at this
      omega
    have hflen : ((leftPad '0' (s + 1 + 1) (natDigits m.natAbs)).drop
        ((leftPad '0' (s + 1 + 1) (natDigits m.natAbs)).length - (s + 1))).length
        = s + 1 := by
      rw [List.length_drop]
      omega
    have hfold : foldDigits
        ((leftPad '0' (s + 1 + 1) (natDigits m.natAbs)).take
          ((leftPad '0' (s + 1 + 1) (natDigits m.natAbs)).length - (s + 1)) ++
         (leftPad '0' (s + 1 + 1) (natDigits m.natAbs)).drop
          ((leftPad '0' (s + 1 + 1) (natDigits m.natAbs)).length - (s + 1)))
        = m.natAbs := by
      rw [List.take_append_drop]
      exact foldDigits_leftPad _ _
    by_cases hm : m < 0
    · rw [printNum_succ_neg m s hm, List.cons_append, List.append_assoc,
        List.cons_append,
        parseNumToken_frac_neg _ _ _ htds htne hfds hfne hr, hfold, hflen]
      have : -(m.natAbs : ℤ) = m := by omega
      rw [this]
    · rw [printNum_succ_nonneg m s hm, List.append_assoc, List.cons_append,
        parseNumToken_frac_pos _ _ _ htds htne hfds hfne hr, hfold, hflen]
      have : ((m.natAbs : ℤ)) = m := by omega
      rw [this]


theorem parseVal_null (fuel : ℕ) (rest : List Char) :
    parseVal (fuel + 1) ('n' :: 'u' :: 'l' :: 'l' :: rest)
      = some (Json.jnull, rest) := rfl

theorem parseVal_true (fuel : ℕ) (rest : List Char) :
    parseVal (fuel + 1) ('t' :: 'r' :: 'u' :: 'e' :: rest)
      = some (Json.jbool true, rest) := rfl

theorem parseVal_false (fuel : ℕ) (rest : List Char) :
    parseVal (fuel + 1) ('f' :: 'a' :: 'l' :: 's' :: 'e' :: rest)
      = some (Json.jbool false, rest) := rfl

theorem parseVal_str (fuel : ℕ) (cs : List Char) :
    parseVal (fuel + 1) ('"' :: cs)
      = (parseStrBody cs).map (fun p => (Json.jstr p.1, p.2)) := rfl

theorem parseVal_obj_nil (fuel : ℕ) (rest : List Char) :
    parseVal (fuel + 1) ('{' :: '}' :: rest)
      = some (Json.jobj JFields.fnil, rest) := rfl

theorem parseVal_obj_cons (fuel : ℕ) (c : Char) (cs : List Char)
    (h : c ≠ '}') :
    parseVal (fuel + 1) ('{' :: c :: cs)
      = (parseFieldSeq fuel (c :: cs)).map (fun p => (Json.jobj p.1, p.2)) := by
  unfold parseVal
  split
  · next heq =>
    have hh := congrArg List.head? heq
    simp at hh
  · next heq =>
    have hh := congrArg List.head? heq
    simp at hh
  · next heq =>
    have hh := congrArg List.head? heq
    simp at hh
  · next heq =>
    have hh := congrArg List.head? heq
    simp at hh
  · next r heq =>
    have hr2 : c :: cs = r := by
      injection heq
    subst hr2
    split
    · next rest2 heq2 =>
      have hh := congrArg List.head? heq2
      simp at hh
      exact absurd hh h
    · rfl
  · next h1 h2 h3 h4 h5 =>
    exact (h5 (c :: cs) rfl).elim


theorem parseVal_default (fuel : ℕ) (c : Char) (cs : List Char)
    (h : c = '-' ∨ c.isDigit = true) :
    parseVal (fuel + 1) (c :: cs)
      = (parseNumToken (c :: cs)).map (fun p => (Json.jnum p.1.1 p.1.2, p.2)) := by
  have hc : c ≠ 'n' ∧ c ≠ 't' ∧ c ≠ 'f' ∧ c ≠ '"' ∧ c ≠ '{' := by
    rcases h with h | h
    · subst h
      exact ⟨by decide, by decide, by decide, by decide, by decide⟩
    · refine ⟨?_, ?_, ?_, ?_, ?_⟩ <;>
        (intro he; rw [he] at h; exact absurd h (by decide))
  unfold parseVal
  split
  · next heq =>
    have hh := congrArg List.head? heq
    simp at hh
    exact absurd hh hc.1
  · next heq =>
    have hh := congrArg List.head? heq
    simp at hh
    exact absurd hh hc.2.1
  · next heq =>
    have hh := congrArg List.head? heq
    simp at hh
    exact absurd hh hc.2.2.1
  · next r heq =>
    have hh := congrArg List.head? heq
    simp at hh
    exact absurd hh hc.2.2.2.1
  · next r heq =>
    have hh := congrArg List.head? heq
    simp at hh
    exact absurd hh hc.2.2.2.2
  · rfl

theorem printNum_head (m : ℤ) (e : ℕ) :
    ∃ c cs2, printNum m e = c :: cs2 ∧ (c = '-' ∨ c.isDigit = true) := by
  cases e with
  | zero =>
    by_cases hm : m < 0
    · exact ⟨'-', natDigits m.natAbs, printNum_zero_neg m hm, Or.inl rfl⟩
    · rw [printNum_zero_nonneg m hm]
      cases hnd : natDigits m.natAbs with
      | nil => exact absurd hnd (natDigits_ne_nil _)
      | cons d ds =>
        exact ⟨d, ds, rfl, Or.inr (natDigits_all_digits _ d (by rw [hnd]; simp))⟩
  | succ s =>
    have hL : s + 1 + 1 ≤ (leftPad '0' (s + 1 + 1) (natDigits m.natAbs)).length := by
      rw [leftPad_length]
      omega
    by_cases hm : m < 0
    · exact ⟨'-', _, printNum_succ_neg m s hm, Or.inl rfl⟩
    · rw [printNum_succ_nonneg m s hm]
      cases ht : (leftPad '0' (s + 1 + 1) (natDigits m.natAbs)).take
          ((leftPad '0' (s + 1 + 1) (natDigits m.natAbs)).length - (s + 1)) with
      | nil =>
        exfalso
        have := congrArg List.length ht
        rw [List.length_take] at this
        simp at this
        omega
      | cons d ds =>
        refine ⟨d, ds ++ '.' :: (leftPad '0' (s + 1 + 1) (natDigits m.natAbs)).drop
          ((leftPad '0' (s + 1 + 1) (natDigits m.natAbs)).length - (s + 1)),
          by simp, Or.inr ?_⟩
        exact leftPad_zero_digits _ _ (natDigits_all_digits _) d
          (List.mem_of_mem_take (by rw [ht]; simp))

theorem jsize_pos (j : Json) : 1 ≤ jsize j := by
  cases j <;> simp [jsize]

theorem fsize_pos (fs : JFields) : 1 ≤ fsize fs := by
  cases fs <;> simp [fsize] <;> omega

theorem printNum_length_pos (m : ℤ) (e : ℕ) : 1 ≤ (printNum m e).length := by
  obtain ⟨c, cs2, h, _⟩ := printNum_head m e
  rw [h]
  simp

mutual
theorem jsize_le_print : ∀ j : Json, jsize j ≤ (printJson j).length
  | .jnull => by simp [jsize, printJson]
  | .jbool true => by simp [jsize, printJson]
  | .jbool false => by simp [jsize, printJson]
  | .jnum m e => by
    simp only [jsize, printJson]
    exact printNum_length_pos m e
  | .jstr s => by
    simp [jsize, printJson]
  | .jobj fs => by
    have h2 := fsize_le_print fs
    rw [show jsize (Json.jobj fs) = 1 + fsize fs from rfl]
    rw [show printJson (Json.jobj fs) = '{' :: (printFields fs ++ ['}']) from rfl]
    simp only [List.length_cons, List.length_append, List.length_singleton]
    omega
theorem fsize_le_print : ∀ fs : JFields, fsize fs ≤ (printFields fs).length + 1
  | .fnil => by simp [fsize, printFields]
  | .fcons k v r => by
    have h1 := jsize_le_print v
    have h2 := fsize_le_print r
    cases r with
    | fnil =>
      simp only [fsize, printFields, List.append_nil, List.length_cons,
        List.length_append]
      simp [fsize] at h2 ⊢
      omega
    | fcons k2 v2 r2 =>
      rw [show fsize (JFields.fcons k v (JFields.fcons k2 v2 r2))
          = 1 + jsize v + fsize (JFields.fcons k2 v2 r2) from rfl]
      rw [show printFields (JFields.fcons k v (JFields.fcons k2 v2 r2))
          = ('"' :: (k ++ '"' :: ':' :: printJson v))
            ++ (',' :: printFields (JFields.fcons k2 v2 r2)) from rfl]
      simp only [List.length_append, List.length_cons]
      omega
end


theorem parseFieldSeq_str (fuel : ℕ) (cs1 : List Char) :
    parseFieldSeq (fuel + 1) ('"' :: cs1)
      = (match parseStrBody cs1 with
         | none => none
         | some (k, cs2) =>
           match cs2 with
           | ':' :: cs3 =>
             (match parseVal fuel cs3 with
              | none => none
              | some (v, cs4) =>
                match cs4 with
                | ',' :: cs5 => (parseFieldSeq fuel cs5).map
                    (fun p => (JFields.fcons k v p.1, p.2))
                | '}' :: cs5 => some (JFields.fcons k v JFields.fnil, cs5)
                | _ => none)
           | _ => none) := rfl

theorem parse_print (fuel : ℕ) :
    (∀ (j : Json) (rest : List Char), wfJson j = true → numSafe rest = true →
      jsize j ≤ fuel → parseVal fuel (printJson j ++ rest) = some (j, rest)) ∧
    (∀ (k : List Char) (v : Json) (fs2 : JFields) (rest : List Char),
      wfFields (JFields.fcons k v fs2) = true →
      fsize (JFields.fcons k v fs2) ≤ fuel →
      parseFieldSeq fuel (printFields (JFields.fcons k v fs2) ++ '}' :: rest)
        = some (JFields.fcons k v fs2, rest)) := by
  induction fuel with
  | zero =>
    constructor
    · intro j rest _ _ hsz
      exact absurd hsz (by have := jsize_pos j; omega)
    · intro k v fs2 rest _ hsz
      exact absurd hsz (by have := fsize_pos (JFields.fcons k v fs2); omega)
  | succ fuel ih =>
    constructor
    · intro j rest hw hns hsz
      cases j with
      | jnull =>
        show parseVal (fuel + 1) ('n' :: 'u' :: 'l' :: 'l' :: rest) = _
        exact parseVal_null fuel rest
      | jbool b =>
        cases b
        · show parseVal (fuel + 1) ('f' :: 'a' :: 'l' :: 's' :: 'e' :: rest) = _
          exact parseVal_false fuel rest
        · show parseVal (fuel + 1) ('t' :: 'r' :: 'u' :: 'e' :: rest) = _
          exact parseVal_true fuel rest
      | jnum mm ee =>
        show parseVal (fuel + 1) (printNum mm ee ++ rest) = _
        obtain ⟨c, cs2, hpn, hcd⟩ := printNum_head mm ee
        rw [hpn, List.cons_append, parseVal_default fuel c _ hcd,
          ← List.cons_append, ← hpn, parseNumToken_print mm ee rest hns]
        rfl
      | jstr sstr =>
        have hws : wfStr sstr = true := by simpa [wfJson] using hw
        show parseVal (fuel + 1) ('"' :: ((sstr ++ ['"']) ++ rest)) = _
        rw [List.append_assoc, show (['"'] : List Char) ++ rest = '"' :: rest from rfl,
          parseVal_str, parseStrBody_print sstr rest hws]
        rfl
      | jobj fs =>
        cases fs with
        | fnil =>
          show parseVal (fuel + 1) ('{' :: '}' :: rest) = _
          exact parseVal_obj_nil fuel rest
        | fcons k v fs2 =>
          have hwf : wfFields (JFields.fcons k v fs2) = true := by
            simpa [wfJson] using hw
          have hf := ih.2 k v fs2 rest hwf (by
            rw [show jsize (Json.jobj (JFields.fcons k v fs2))
                = 1 + fsize (JFields.fcons k v fs2) from rfl] at hsz
            omega)
          show parseVal (fuel + 1)
            ('{' :: ((printFields (JFields.fcons k v fs2) ++ ['}']) ++ rest)) = _
          rw [List.append_assoc, show (['}'] : List Char) ++ rest = '}' :: rest from rfl]
          simp only [printFields, List.cons_append, List.append_assoc] at hf ⊢
          rw [parseVal_obj_cons fuel '"' _ (by decide), hf]
          rfl
    · intro k v fs2 rest hwf hsz
      have hw3 := hwf
      simp only [wfFields, Bool.and_eq_true] at hw3
      have hszv : jsize v ≤ fuel := by
        have h1 := fsize_pos fs2
        rw [show fsize (JFields.fcons k v fs2) = 1 + jsize v + fsize fs2 from rfl] at hsz
        omega
      cases fs2 with
      | fnil =>
        show parseFieldSeq (fuel + 1)
          ((('"' :: (k ++ '"' :: ':' :: printJson v)) ++ []) ++ '}' :: rest) = _
        simp only [List.append_nil, List.cons_append, List.append_assoc]
        rw [parseFieldSeq_str, parseStrBody_print k _ hw3.1.1]
        have hv := ih.1 v ('}' :: rest) hw3.1.2 rfl hszv
        simp only [hv]
      | fcons k2 v2 fs3 =>
        have hsz2 : fsize (JFields.fcons k2 v2 fs3) ≤ fuel := by
          rw [show fsize (JFields.fcons k v (JFields.fcons k2 v2 fs3))
              = 1 + jsize v + fsize (JFields.fcons k2 v2 fs3) from rfl] at hsz
          have := jsize_pos v
          omega
        have hf2 := ih.2 k2 v2 fs3 rest hw3.2 hsz2
        show parseFieldSeq (fuel + 1)
          ((('"' :: (k ++ '"' :: ':' :: printJson v))
            ++ (',' :: printFields (JFields.fcons k2 v2 fs3))) ++ '}' :: rest) = _
        simp only [List.cons_append, List.append_assoc]
        rw [parseFieldSeq_str, parseStrBody_print k _ hw3.1.1]
        have hv := ih.1 v
          (',' :: (printFields (JFields.fcons k2 v2 fs3) ++ '}' :: rest))
          hw3.1.2 rfl hszv
        simp only [hv, hf2, Option.map_some']


theorem parseJsonComplete_print (j : Json) (hw : wfJson j = true) :
    parseJsonComplete (printJson j) = some j := by
  unfold parseJsonComplete
  have h := (parse_print ((printJson j).length + 1)).1 j [] hw rfl
    (by have := jsize_le_print j; omega)
  rw [List.append_nil] at h
  rw [h]

theorem wfJson_stateJson (s : ShareableState) (hw : wfState s = true) :
    wfJson (stateJson s) = true := by
  have hw2 : wfStr s.scale = true := hw
  simp only [stateJson, wfJson, wfFields, jn, hw2, Bool.and_eq_true]
  decide

theorem decode_encode_b64Char : ∀ v < 64, decodeB64Char (encodeB64Char v) = some v := by
  decide

theorem encodeB64Char_ne_eq : ∀ v < 64, encodeB64Char v ≠ '=' := by
  decide

theorem urlRoundChar : ∀ v < 64,
    unUrlSafeChar (urlSafeChar (encodeB64Char v)) = encodeB64Char v := by
  decide

theorem urlChar_ne_eq : ∀ v < 64, urlSafeChar (encodeB64Char v) ≠ '=' := by
  decide


theorem b64_roundtrip_aux (n : ℕ) : ∀ (bs : List ℕ), bs.length ≤ n →
    (∀ b ∈ bs, b < 256) →
    b64decodeChars (b64encodeBytes bs) = some bs := by
  induction n with
  | zero =>
    intro bs hlen hb
    cases bs with
    | nil => rfl
    | cons b t => simp at hlen
  | succ n ihn =>
    intro bs hlen hb
    rcases bs with _ | ⟨b1, _ | ⟨b2, _ | ⟨b3, rest⟩⟩⟩
    · rfl
    · have hb1 := hb b1 (by simp)
      have h1 : decodeB64Char (encodeB64Char (b1 / 4)) = some (b1 / 4) :=
        decode_encode_b64Char _ (by omega)
      have h2 : decodeB64Char (encodeB64Char (b1 % 4 * 16)) = some (b1 % 4 * 16) :=
        decode_encode_b64Char _ (by omega)
      show b64decodeChars [encodeB64Char (b1 / 4), encodeB64Char (b1 % 4 * 16),
        '=', '='] = some [b1]
      unfold b64decodeChars
      rw [h1, h2]
      simp
      omega
    · have hb1 := hb b1 (by simp)
      have hb2 := hb b2 (by simp)
      have h1 : decodeB64Char (encodeB64Char (b1 / 4)) = some (b1 / 4) :=
        decode_encode_b64Char _ (by omega)
      have h2 : decodeB64Char (encodeB64Char (b1 % 4 * 16 + b2 / 16))
          = some (b1 % 4 * 16 + b2 / 16) := decode_encode_b64Char _ (by omega)
      have h3 : decodeB64Char (encodeB64Char (b2 % 16 * 4)) = some (b2 % 16 * 4) :=
        decode_encode_b64Char _ (by omega)
      have hne3 : ¬(encodeB64Char (b2 % 16 * 4) = '=') :=
        encodeB64Char_ne_eq _ (by omega)
      show b64decodeChars [encodeB64Char (b1 / 4),
        encodeB64Char (b1 % 4 * 16 + b2 / 16), encodeB64Char (b2 % 16 * 4), '=']
        = some [b1, b2]
      unfold b64decodeChars
      rw [h1, h2, h3]
      simp [hne3]
      omega
    · have hb1 := hb b1 (by simp)
      have hb2 := hb b2 (by simp)
      have hb3 := hb b3 (by simp)
      have h1 : decodeB64Char (encodeB64Char (b1 / 4)) = some (b1 / 4) :=
        decode_encode_b64Char _ (by omega)
      have h2 : decodeB64Char (encodeB64Char (b1 % 4 * 16 + b2 / 16))
          = some (b1 % 4 * 16 + b2 / 16) := decode_encode_b64Char _ (by omega)
      have h3 : decodeB64Char (encodeB64Char (b2 % 16 * 4 + b3 / 64))
          = some (b2 % 16 * 4 + b3 / 64) := decode_encode_b64Char _ (by omega)
      have h4 : decodeB64Char (encodeB64Char (b3 % 64)) = some (b3 % 64) :=
        decode_encode_b64Char _ (by omega)
      have hne3 : ¬(encodeB64Char (b2 % 16 * 4 + b3 / 64) = '=') :=
        encodeB64Char_ne_eq _ (by omega)
      have hne4 : ¬(encodeB64Char (b3 % 64) = '=') :=
        encodeB64Char_ne_eq _ (by omega)
      have hrec := ihn rest (by simp at hlen ⊢; omega) (fun b hbm => hb b (by simp [hbm]))
      show b64decodeChars (encodeB64Char (b1 / 4) ::
        encodeB64Char (b1 % 4 * 16 + b2 / 16) ::
        encodeB64Char (b2 % 16 * 4 + b3 / 64) :: encodeB64Char (b3 % 64) ::
        b64encodeBytes rest) = some (b1 :: b2 :: b3 :: rest)
      unfold b64decodeChars
      rw [h1, h2, h3, h4, hrec]
      simp [hne3, hne4]
      omega

theorem b64_roundtrip (bs : List ℕ) (hb : ∀ b ∈ bs, b < 256) :
    b64decodeChars (b64encodeBytes bs) = some bs :=
  b64_roundtrip_aux bs.length bs le_rfl hb

theorem b64encode_structure : ∀ (n : ℕ) (bs : List ℕ), bs.length ≤ n →
    (∀ b ∈ bs, b < 256) →
    ∃ core p, b64encodeBytes bs = core ++ List.replicate p '=' ∧
    (∀ c ∈ core, ∃ v, v < 64 ∧ c = encodeB64Char v) ∧ p ≤ 2 ∧
    (core.length + p) % 4 = 0 := by
  intro n
  induction n with
  | zero =>
    intro bs hlen hb
    cases bs with
    | nil => exact ⟨[], 0, rfl, by simp, by omega, by simp⟩
    | cons b t => simp at hlen
  | succ n ihn =>
    intro bs hlen hb
    rcases bs with _ | ⟨b1, _ | ⟨b2, _ | ⟨b3, rest⟩⟩⟩
    · exact ⟨[], 0, rfl, by simp, by omega, by simp⟩
    · have hb1 := hb b1 (by simp)
      refine ⟨[encodeB64Char (b1 / 4), encodeB64Char (b1 % 4 * 16)], 2, rfl,
        ?_, by omega, by simp⟩
      intro c hc
      simp at hc
      rcases hc with h | h
      · exact ⟨b1 / 4, by omega, h⟩
      · exact ⟨b1 % 4 * 16, by omega, h⟩
    · have hb1 := hb b1 (by simp)
      have hb2 := hb b2 (by simp)
      refine ⟨[encodeB64Char (b1 / 4), encodeB64Char (b1 % 4 * 16 + b2 / 16),
        encodeB64Char (b2 % 16 * 4)], 1, rfl, ?_, by omega, by simp⟩
      intro c hc
      simp at hc
      rcases hc with h | h | h
      · exact ⟨b1 / 4, by omega, h⟩
      · exact ⟨b1 % 4 * 16 + b2 / 16, by omega, h⟩
      · exact ⟨b2 % 16 * 4, by omega, h⟩
    · have hb1 := hb b1 (by simp)
      have hb2 := hb b2 (by simp)
      have hb3 := hb b3 (by simp)
      obtain ⟨core, p, henc, hcore, hp, hmod⟩ := ihn rest
        (by simp at hlen ⊢; omega) (fun b hbm => hb b (by simp [hbm]))
      refine ⟨encodeB64Char (b1 / 4) :: encodeB64Char (b1 % 4 * 16 + b2 / 16) ::
        encodeB64Char (b2 % 16 * 4 + b3 / 64) :: encodeB64Char (b3 % 64) :: core,
        p, ?_, ?_, hp, ?_⟩
      · show encodeB64Char (b1 / 4) :: encodeB64Char (b1 % 4 * 16 + b2 / 16) ::
          encodeB64Char (b2 % 16 * 4 + b3 / 64) :: encodeB64Char (b3 % 64) ::
          b64encodeBytes rest = _
        rw [henc]
        simp
      · intro c hc
        simp at hc
        rcases hc with h | h | h | h | h
        · exact ⟨b1 / 4, by omega, h⟩
        · exact ⟨b1 % 4 * 16 + b2 / 16, by omega, h⟩
        · exact ⟨b2 % 16 * 4 + b3 / 64, by omega, h⟩
        · exact ⟨b3 % 64, by omega, h⟩
        · exact hcore c h
      · simp only [List.length_cons]
        omega

theorem dropWhile_eq_replicate_append (core : List Char)
    (h : ∀ c ∈ core, c ≠ '=') : ∀ p : ℕ,
    (List.replicate p '=' ++ core.reverse).dropWhile (fun c => c = '=')
      = core.reverse := by
  intro p
  induction p with
  | zero =>
    simp only [List.replicate, List.nil_append]
    cases hc : core.reverse with
    | nil => simp
    | cons d t =>
      have hd : d ∈ core := by
        rw [← List.mem_reverse, hc]
        simp
      rw [List.dropWhile_cons_of_neg (by simp [h d hd])]
  | succ p ih =>
    rw [List.replicate_succ, List.cons_append,
      List.dropWhile_cons_of_pos (by simp)]
    exact ih

theorem stripTrailingEq_append (core : List Char) (p : ℕ)
    (h : ∀ c ∈ core, c ≠ '=') :
    stripTrailingEq (core ++ List.replicate p '=') = core := by
  unfold stripTrailingEq
  rw [List.reverse_append, List.reverse_replicate,
    dropWhile_eq_replicate_append core h p, List.reverse_reverse]

theorem unUrlSafe_urlSafe (bs : List ℕ) (hb : ∀ b ∈ bs, b < 256) :
    unUrlSafe (urlSafe (b64encodeBytes bs)) = b64encodeBytes bs := by
  obtain ⟨core, p, henc, hcore, hp, hmod⟩ :=
    b64encode_structure bs.length bs le_rfl hb
  rw [henc]
  unfold urlSafe unUrlSafe
  rw [List.map_append, List.map_replicate,
    show urlSafeChar '=' = '=' from rfl,
    stripTrailingEq_append _ p (by
      intro c hc
      obtain ⟨d, hd, hud⟩ := List.mem_map.mp hc
      obtain ⟨v, hv, hcv⟩ := hcore d hd
      rw [← hud, hcv]
      exact urlChar_ne_eq v hv),
    List.map_map]
  have hmapid : core.map (unUrlSafeChar ∘ urlSafeChar) = core := by
    have hmg : core.map (unUrlSafeChar ∘ urlSafeChar) = core.map id := by
      apply List.map_congr_left
      intro a ha
      obtain ⟨v, hv, hcv⟩ := hcore a ha
      simp only [Function.comp_apply, id_eq, hcv]
      exact urlRoundChar v hv
    rw [hmg, List.map_id]
  rw [hmapid]
  unfold padTo4
  have hcount : (4 - core.length % 4) % 4 = p := by omega
  rw [hcount]


theorem char_toNat_valid (c : Char) :
    c.toNat < 55296 ∨ (57344 ≤ c.toNat ∧ c.toNat < 1114112) := by
  have h := c.valid
  unfold UInt32.isValidChar Nat.isValidChar at h
  show c.val.toNat < 55296 ∨ (57344 ≤ c.val.toNat ∧ c.val.toNat < 1114112)
  omega

theorem isValidCp_char (c : Char) : isValidCp c.toNat = true := by
  simp only [isValidCp, Bool.or_eq_true, Bool.and_eq_true, decide_eq_true_eq]
  rcases char_toNat_valid c with h | h
  · exact Or.inl (by omega)
  · exact Or.inr ⟨by omega, by omega⟩

theorem utf8EncodeChar_bytes (c : Char) : ∀ b ∈ utf8EncodeChar c, b < 256 := by
  have hv := char_toNat_valid c
  have hlt : c.toNat < 1114112 := by rcases hv with h | h <;> omega
  intro b hb
  by_cases h1 : c.toNat < 128
  · rw [show utf8EncodeChar c = [c.toNat] from by simp [utf8EncodeChar, h1]] at hb
    simp at hb
    omega
  · by_cases h2 : c.toNat < 2048
    · rw [show utf8EncodeChar c = [192 + c.toNat / 64, 128 + c.toNat % 64] from by
        simp [utf8EncodeChar, h1, h2]] at hb
      simp at hb
      rcases hb with hb | hb <;> omega
    · by_cases h3 : c.toNat < 65536
      · rw [show utf8EncodeChar c = [224 + c.toNat / 4096, 128 + c.toNat / 64 % 64,
          128 + c.toNat % 64] from by simp [utf8EncodeChar, h1, h2, h3]] at hb
        simp at hb
        rcases hb with hb | hb | hb <;> omega
      · rw [show utf8EncodeChar c = [240 + c.toNat / 262144,
          128 + c.toNat / 4096 % 64, 128 + c.toNat / 64 % 64,
          128 + c.toNat % 64] from by simp [utf8EncodeChar, h1, h2, h3]] at hb
        simp at hb
        rcases hb with hb | hb | hb | hb <;> omega

theorem utf8Encode_bytes (s : List Char) : ∀ b ∈ utf8Encode s, b < 256 := by
  intro b hb
  simp only [utf8Encode] at hb
  rw [List.mem_flatten] at hb
  obtain ⟨L, hL, hbL⟩ := hb
  obtain ⟨c, _, hc⟩ := List.mem_map.mp hL
  rw [← hc] at hbL
  exact utf8EncodeChar_bytes c b hbL

theorem utf8DecodeAux_encode : ∀ (s : List Char) (fuel : ℕ),
    (utf8Encode s).length ≤ fuel →
    utf8DecodeAux fuel (utf8Encode s) = some s := by
  intro s
  induction s with
  | nil =>
    intro fuel _
    cases fuel <;> rfl
  | cons c s2 ih =>
    intro fuel hlen
    have henc : utf8Encode (c :: s2) = utf8EncodeChar c ++ utf8Encode s2 := by
      simp [utf8Encode]
    rw [henc] at hlen ⊢
    have hv := char_toNat_valid c
    have hlt : c.toNat < 1114112 := by rcases hv with h | h <;> omega
    by_cases h1 : c.toNat < 128
    · have he : utf8EncodeChar c = [c.toNat] := by
        simp [utf8EncodeChar, h1]
      rw [he] at hlen ⊢
      cases fuel with
      | zero => simp at hlen
      | succ f =>
        show utf8DecodeAux (f + 1) (c.toNat :: utf8Encode s2) = _
        unfold utf8DecodeAux
        rw [if_pos h1, ih f (by simp at hlen; omega)]
        simp [Char.ofNat_toNat]
    · by_cases h2 : c.toNat < 2048
      · have he : utf8EncodeChar c = [192 + c.toNat / 64, 128 + c.toNat % 64] := by
          simp [utf8EncodeChar, h1, h2]
        rw [he] at hlen ⊢
        cases fuel with
        | zero => simp at hlen
        | succ f =>
          show utf8DecodeAux (f + 1)
            ((192 + c.toNat / 64) :: (128 + c.toNat % 64) :: utf8Encode s2) = _
          unfold utf8DecodeAux
          rw [if_neg (show ¬(192 + c.toNat / 64 < 128) by omega),
            if_pos (show (decide (192 ≤ 192 + c.toNat / 64)
                && decide (192 + c.toNat / 64 < 224)) = true by
              simp only [Bool.and_eq_true, decide_eq_true_eq]
              omega)]
          simp only []
          rw [if_pos (show isContByte (128 + c.toNat % 64) = true by
            simp only [isContByte, Bool.and_eq_true, decide_eq_true_eq]
            omega)]
          have hn : (192 + c.toNat / 64 - 192) * 64 + (128 + c.toNat % 64 - 128)
              = c.toNat := by omega
          rw [hn]
          rw [if_pos (show (decide (128 ≤ c.toNat) && isValidCp c.toNat) = true by
            simp only [Bool.and_eq_true, decide_eq_true_eq]
            exact ⟨by omega, isValidCp_char c⟩)]
          rw [ih f (by simp at hlen; omega)]
          simp [Char.ofNat_toNat]
      · by_cases h3 : c.toNat < 65536
        · have he : utf8EncodeChar c = [224 + c.toNat / 4096,
              128 + c.toNat / 64 % 64, 128 + c.toNat % 64] := by
            simp [utf8EncodeChar, h1, h2, h3]
          rw [he] at hlen ⊢
          cases fuel with
          | zero => simp at hlen
          | succ f =>
            show utf8DecodeAux (f + 1)
              ((224 + c.toNat / 4096) :: (128 + c.toNat / 64 % 64) ::
                (128 + c.toNat % 64) :: utf8Encode s2) = _
            unfold utf8DecodeAux
            rw [if_neg (show ¬(224 + c.toNat / 4096 < 128) by omega),
              if_neg (show ¬((decide (192 ≤ 224 + c.toNat / 4096)
                  && decide (224 + c.toNat / 4096 < 224)) = true) by
                simp only [Bool.and_eq_true, decide_eq_true_eq]
                omega),
              if_pos (show (decide (224 ≤ 224 + c.toNat / 4096)
                  && decide (224 + c.toNat / 4096 < 240)) = true by
                simp only [Bool.and_eq_true, decide_eq_true_eq]
                omega)]
            simp only []
            rw [if_pos (show (isContByte (128 + c.toNat / 64 % 64)
                && isContByte (128 + c.toNat % 64)) = true by
              simp only [isContByte, Bool.and_eq_true, decide_eq_true_eq]
              omega)]
            have hn : (224 + c.toNat / 4096 - 224) * 4096
                + (128 + c.toNat / 64 % 64 - 128) * 64
                + (128 + c.toNat % 64 - 128) = c.toNat := by omega
            rw [hn]
            rw [if_pos (show (decide (2048 ≤ c.toNat) && isValidCp c.toNat) = true by
              simp only [Bool.and_eq_true, decide_eq_true_eq]
              exact ⟨by omega, isValidCp_char c⟩)]
            rw [ih f (by simp at hlen; omega)]
            simp [Char.ofNat_toNat]
        · have he : utf8EncodeChar c = [240 + c.toNat / 262144,
              128 + c.toNat / 4096 % 64, 128 + c.toNat / 64 % 64,
              128 + c.toNat % 64] := by
            simp [utf8EncodeChar, h1, h2, h3]
          rw [he] at hlen ⊢
          cases fuel with
          | zero => simp at hlen
          | succ f =>
            show utf8DecodeAux (f + 1)
              ((240 + c.toNat / 262144) :: (128 + c.toNat / 4096 % 64) ::
                (128 + c.toNat / 64 % 64) :: (128 + c.toNat % 64) ::
                utf8Encode s2) = _
            unfold utf8DecodeAux
            rw [if_neg (show ¬(240 + c.toNat / 262144 < 128) by omega),
              if_neg (show ¬((decide (192 ≤ 240 + c.toNat / 262144)
                  && decide (240 + c.toNat / 262144 < 224)) = true) by
                simp only [Bool.and_eq_true, decide_eq_true_eq]
                omega),
              if_neg (show ¬((decide (224 ≤ 240 + c.toNat / 262144)
                  && decide (240 + c.toNat / 262144 < 240)) = true) by
                simp only [Bool.and_eq_true, decide_eq_true_eq]
                omega),
              if_pos (show (decide (240 ≤ 240 + c.toNat / 262144)
                  && decide (240 + c.toNat / 262144 < 248)) = true by
                simp only [Bool.and_eq_true, decide_eq_true_eq]
                omega)]
            simp only []
            rw [if_pos (show (isContByte (128 + c.toNat / 4096 % 64)
                && isContByte (128 + c.toNat / 64 % 64)
                && isContByte (128 + c.toNat % 64)) = true by
              simp only [isContByte, Bool.and_eq_true, decide_eq_true_eq]
              omega)]
            have hn : (240 + c.toNat / 262144 - 240) * 262144
                + (128 + c.toNat / 4096 % 64 - 128) * 4096
                + (128 + c.toNat / 64 % 64 - 128) * 64
                + (128 + c.toNat % 64 - 128) = c.toNat := by omega
            rw [hn]
            rw [if_pos (show (decide (65536 ≤ c.toNat) && isValidCp c.toNat) = true by
              simp only [Bool.and_eq_true, decide_eq_true_eq]
              exact ⟨by omega, isValidCp_char c⟩)]
            rw [ih f (by simp at hlen; omega)]
            simp [Char.ofNat_toNat]

theorem utf8_roundtrip (s : List Char) : utf8Decode (utf8Encode s) = some s :=
  utf8DecodeAux_encode s (utf8Encode s).length le_rfl


/-- C2: the serialize/deserialize round trip.  For every state
representable in the versioned schema whose scale name is printable
verbatim, and under the inverse-compression contract for pako when it is
loaded, any token produced by `serializeToURL` deserializes back to the
exact same JSON state object — every field, numeric fields by exact
equality. -/
theorem c2_roundtrip (pako : Option Codec) (hc : CodecOK pako)
    (s : ShareableState) (hw : wfState s = true) (tok : List Char)
    (hser : serializeToURL pako (stateJson s) = some tok) :
    deserializeFromURL pako tok = some (stateJson s) := by
  have hwj := wfJson_stateJson s hw
  cases pako with
  | none =>
    have hbytes := utf8Encode_bytes (printJson (stateJson s))
    have hbt : btoaBytes (utf8Encode (printJson (stateJson s)))
        = some (b64encodeBytes (utf8Encode (printJson (stateJson s)))) := by
      unfold btoaBytes
      rw [if_pos (by simp only [List.all_eq_true, decide_eq_true_eq]; exact hbytes)]
    have h2 : serializeToURL none (stateJson s)
        = some (b64encodeBytes (utf8Encode (printJson (stateJson s)))) := by
      simp only [serializeToURL, hbt]
    rw [h2] at hser
    have htok := (Option.some.inj hser).symm
    subst htok
    show deserializeFromURL none
      (b64encodeBytes (utf8Encode (printJson (stateJson s)))) = some (stateJson s)
    simp only [deserializeFromURL, deserPipeline, b64_roundtrip _ hbytes,
      utf8_roundtrip, parseJsonComplete_print _ hwj, Except.toOption]
  | some codec =>
    cases hdef : codec.deflate (printJson (stateJson s)) with
    | none =>
      exfalso
      have h0 : serializeToURL (some codec) (stateJson s) = none := by
        simp only [serializeToURL, hdef]
      rw [h0] at hser
      exact Option.noConfusion hser
    | some bytes =>
      obtain ⟨hinf, hb256⟩ := hc _ _ hdef
      have hbt : btoaBytes bytes = some (b64encodeBytes bytes) := by
        unfold btoaBytes
        rw [if_pos (by simp only [List.all_eq_true, decide_eq_true_eq]; exact hb256)]
      have h2 : serializeToURL (some codec) (stateJson s)
          = some (urlSafe (b64encodeBytes bytes)) := by
        simp only [serializeToURL, hdef, hbt, Option.map_some']
      rw [h2] at hser
      have htok := (Option.some.inj hser).symm
      subst htok
      show deserializeFromURL (some codec) (urlSafe (b64encodeBytes bytes))
        = some (stateJson s)
      simp only [deserializeFromURL, deserPipeline, unUrlSafe_urlSafe bytes hb256,
        b64_roundtrip bytes hb256, hinf, parseJsonComplete_print _ hwj,
        Except.toOption]

set_option maxRecDepth 100000 in
/-- C2 (witness): the round trip evaluated on a concrete shareable state
over the no-pako path — serializing and then deserializing the example
state reproduces its JSON object exactly. -/
theorem c2_roundtrip_witness :
    (serializeToURL none (stateJson exState)).bind (deserializeFromURL none)
      = some (stateJson exState) := by
  obtain ⟨tok, htok⟩ := Option.isSome_iff_exists.mp
    (show (serializeToURL none (stateJson exState)).isSome = true from by decide)
  rw [htok]
  show deserializeFromURL none tok = some (stateJson exState)
  exact c2_roundtrip none trivial exState (by decide) tok htok

end Argo
